import Mathlib

/-!
# Verification of the journal-name normalizer and matcher of ImpactFactorFinder

Shallow embedding of the algorithmic kernel of `src/app.py`:

* `standardize_text` (lines 45-56): lower-case, strip, `&`→`and`, `[-:]`→space,
  removal of parentheticals containing a marker word, whole-token abbreviation
  expansion over `JOURNAL_REPLACEMENTS`, punctuation stripping, whitespace
  collapsing.
* the matching loop of `process_single_file` (lines 183-240): per-journal
  empty check, exact dictionary hit with score 100, otherwise
  `rapidfuzz.process.extractOne` with `scorer=fuzz.ratio` and
  `score_cutoff=90`, else a no-match row with score 0.

Modelling conventions:
* Python strings are `String` / `List Char`.  The regex classes `\w` and `\s`
  are modelled on the ASCII fragment (`Char.isAlphanum` plus underscore for
  `\w`, `Char.isWhitespace` for `\s`); `str.lower` is modelled on ASCII
  (`lowerChar`).  Non-ASCII code points are left unchanged, a conservative
  approximation that is exact on the ASCII inputs all concrete theorems use.
* `rapidfuzz.fuzz.ratio` is the normalized InDel similarity
  `100 * (2*lcs(a,b)) / (|a|+|b|)` (100 for two empty strings), an exact
  rational; real scores are modelled in `ℚ`.
* `rapidfuzz.process.extractOne` returns the first choice attaining the
  maximal score provided that score is `≥ score_cutoff` (the cutoff is
  inclusive; on ties the first-encountered choice wins), else `None`.
* pandas cell values are `PyValue`; `astype(str)` is `pyStr` (its rendering
  of numeric cells is an inessential approximation, no theorem depends on it).
-/

namespace ImpactFactor

/-- A pandas cell value: a string, a number, or a missing value. -/
inductive PyValue where
  | str (s : String)
  | num (q : ℚ)
  | pyNone
deriving DecidableEq, Repr

/-- `astype(str)` on a cell value (`"nan"` is what pandas prints for NaN). -/
def pyStr : PyValue → String
  | .str s => s
  | .num q => toString q
  | .pyNone => "nan"

/-- The metadata payload of one reference row: the `JIF 2024` and
`JIF Quartile` cells (`row.iloc[2]`, `row.iloc[3]` in `process_single_file`). -/
structure Payload where
  jif : PyValue
  quartile : PyValue
deriving DecidableEq, Repr

/-- One row of the per-journal result tuple list built by the loop of
`process_single_file`: `(Processed Journal Name, Best Match, Match Score,
JIF 2024, JIF Quartile)`. -/
structure MatchResult where
  name : String
  best : String
  score : ℚ
  jif : PyValue
  quartile : PyValue
deriving DecidableEq, Repr

/-- Stand-in used for `list[0]` on payload lists (which are nonempty by
construction in `process_single_file`, so the default is never reached). -/
def emptyPayload : Payload := ⟨.str "", .str ""⟩

/-! ## Character classes (ASCII fragment of the regex classes) -/

/-- The regex class `\w` (word character): ASCII alphanumeric or underscore,
written as code-point ranges (`A-Z`, `a-z`, `0-9`, `_`). -/
def isWordChar (c : Char) : Bool :=
  (65 ≤ c.toNat && c.toNat ≤ 90) || (97 ≤ c.toNat && c.toNat ≤ 122) ||
    (48 ≤ c.toNat && c.toNat ≤ 57) || c == '_'

/-- The regex class `\s` / `str.split()` whitespace. -/
def isSpaceChar (c : Char) : Bool := c.isWhitespace

/-- `str.lower` on the ASCII range: `'A'..'Z'` (code points 65-90) are
shifted to `'a'..'z'`, every other code point is unchanged. -/
def lowerChar (c : Char) : Char :=
  if 65 ≤ c.toNat ∧ c.toNat ≤ 90 then Char.ofNat (c.toNat + 32) else c

/-! ## The normalizer `standardize_text`, stage by stage -/

/-- `text.lower()`. -/
def pyLower (s : List Char) : List Char := s.map lowerChar

/-- `text.strip()`. -/
def pyStrip (s : List Char) : List Char :=
  ((s.dropWhile isSpaceChar).reverse.dropWhile isSpaceChar).reverse

/-- `text.replace('&', 'and')`. -/
def replaceAmp (s : List Char) : List Char :=
  s.foldr (fun c acc => if c == '&' then 'a' :: 'n' :: 'd' :: acc else c :: acc) []

/-- `re.sub(r'[-:]', ' ', text)`. -/
def replaceHyphenColon (s : List Char) : List Char :=
  s.map (fun c => if c == '-' || c == ':' then ' ' else c)

/-- The alternation `(print|online|www|web|issn|doi)` of the parenthetical
regex, in source order. -/
def parenMarkers : List (List Char) :=
  [['p','r','i','n','t'], ['o','n','l','i','n','e'], ['w','w','w'],
   ['w','e','b'], ['i','s','s','n'], ['d','o','i']]

/-- Case-insensitive literal match of `pat` against the front of `s`
(`re.IGNORECASE` on the ASCII range; all patterns are lower-case). -/
def caselessAt (pat : List Char) (s : List Char) : Bool :=
  (s.take pat.length).map lowerChar == pat

/-- The first alternative of `(print|online|www|web|issn|doi)` matching at the
front of `s`, returning its length. -/
def markerAt (s : List Char) : Option Nat :=
  parenMarkers.findSome? (fun m => if caselessAt m s then some m.length else none)

/-- `.*?\)` after the marker: number of characters up to and including the
first `')'`, failing if a newline (which `.` does not match) comes first. -/
def completeAt : List Char → Option Nat
  | [] => none
  | c :: rest =>
    if c == ')' then some 1
    else if c == '\n' then none
    else (completeAt rest).map (· + 1)

/-- `[^)]*?(marker).*?\)` against the characters following a `'('`: scan for
the earliest marker occurrence not preceded by `')'`; on a marker whose
`.*?\)` part cannot complete, backtrack to later marker occurrences.  Returns
the total number of characters of the match after the `'('`. -/
def scanParenBody : List Char → Option Nat
  | [] => none
  | c :: rest =>
    if c == ')' then none
    else
      match markerAt (c :: rest) with
      | some mlen =>
        match completeAt ((c :: rest).drop mlen) with
        | some k => some (mlen + k)
        | none => (scanParenBody rest).map (· + 1)
      | none => (scanParenBody rest).map (· + 1)

/-- Recursion engine of `parenSub`, structurally recursive on a fuel that
bounds the string length (each step consumes at least one character, so the
fuel is never exhausted when it starts at the string length). -/
def parenSubF : Nat → List Char → List Char
  | _, [] => []
  | 0, s => s
  | f + 1, c :: rest =>
    if c == '(' then
      match scanParenBody rest with
      | some n => parenSubF f (rest.drop n)
      | none => c :: parenSubF f rest
    else c :: parenSubF f rest

/-- `re.sub(r'\([^)]*?(print|online|www|web|issn|doi).*?\)', '', text)`:
delete every (leftmost, non-overlapping) parenthetical that contains a marker
word. -/
def parenSub (s : List Char) : List Char := parenSubF s.length s

/-- `isWordChar` lifted to the optional characters adjacent to a regex
position (string edges count as non-word). -/
def isWordO : Option Char → Bool
  | none => false
  | some c => isWordChar c

/-- The regex word boundary `\b`: exactly one of the two adjacent characters
is a word character. -/
def wordBoundary (a b : Option Char) : Bool := isWordO a != isWordO b

/-- Does `\b<key>\b` match at the front of `s`, where `prev` is the character
immediately before this position in the full string? -/
def keyMatch (key : List Char) (prev : Option Char) (s : List Char) : Bool :=
  caselessAt key s && wordBoundary prev s.head? &&
    wordBoundary ((s.take key.length).getLast?) ((s.drop key.length).head?)

/-- Recursion engine of `subBAux`, structurally recursive on a fuel that
bounds the string length (each step consumes at least one character). -/
def subBAuxF (k : Char) (ks : List Char) (v : List Char) :
    Nat → Option Char → List Char → List Char
  | _, _, [] => []
  | 0, _, s => s
  | f + 1, prev, c :: rest =>
    if keyMatch (k :: ks) prev (c :: rest) then
      v ++ subBAuxF k ks v f (((c :: rest).take (k :: ks).length).getLast?)
            ((c :: rest).drop (k :: ks).length)
    else
      c :: subBAuxF k ks v f (some c) rest

/-- `re.sub(rf'\b{abbr}\b', full, text, flags=re.IGNORECASE)` scanning engine:
left-to-right, non-overlapping, replacement text not rescanned; `prev` is the
last consumed character of the original string. -/
def subBAux (k : Char) (ks : List Char) (v : List Char)
    (prev : Option Char) (s : List Char) : List Char :=
  subBAuxF k ks v s.length prev s

/-- One abbreviation-table substitution `re.sub(rf'\b{abbr}\b', full, ...)`. -/
def reSubWordB (key val : String) (s : List Char) : List Char :=
  match key.data with
  | [] => s
  | k :: ks => subBAux k ks val.data none s

/-- The `JOURNAL_REPLACEMENTS` table of `src/app.py` (lines 19-43), in Python
dict insertion order; regex-escaped keys like `'j\\.'` denote the literal
`"j."`. -/
def JOURNAL_REPLACEMENTS : List (String × String) :=
  [("intl", "international"), ("int", "international"), ("natl", "national"),
   ("nat", "national"), ("sci", "science"), ("med", "medical"),
   ("res", "research"), ("tech", "technology"), ("eng", "engineering"),
   ("phys", "physics"), ("chem", "chemistry"), ("bio", "biology"),
   ("env", "environmental"), ("mgmt", "management"), ("dev", "development"),
   ("edu", "education"), ("univ", "university"), ("j.", "journal"),
   ("jr.", "journal"), ("jrnl.", "journal"), ("proc.", "proceedings"),
   ("rev.", "review"), ("q.", "quarterly")]

/-- The `for abbr, full in JOURNAL_REPLACEMENTS.items()` substitution loop. -/
def applyReplacements (s : List Char) : List Char :=
  JOURNAL_REPLACEMENTS.foldl (fun t r => reSubWordB r.1 r.2 t) s

/-- `re.sub(r'[^\w\s]', ' ', text)`. -/
def stripPunct (s : List Char) : List Char :=
  s.map (fun c => if !(isWordChar c) && !(isSpaceChar c) then ' ' else c)

/-- Recursion engine of `splitWords`, structurally recursive on a fuel that
bounds the string length (each step consumes at least one character). -/
def splitWordsF : Nat → List Char → List (List Char)
  | _, [] => []
  | 0, _ => []
  | f + 1, c :: rest =>
    if isSpaceChar c then splitWordsF f rest
    else (c :: rest.takeWhile (fun d => !(isSpaceChar d))) ::
           splitWordsF f (rest.dropWhile (fun d => !(isSpaceChar d)))

/-- `text.split()`: maximal runs of non-whitespace characters. -/
def splitWords (s : List Char) : List (List Char) := splitWordsF s.length s

/-- `' '.join(words)`. -/
def joinSpace : List (List Char) → List Char
  | [] => []
  | [w] => w
  | w :: x :: ws => w ++ ' ' :: joinSpace (x :: ws)

/-- The whole body of `standardize_text` on an actual string. -/
def standardizeList (s : List Char) : List Char :=
  joinSpace (splitWords (stripPunct (applyReplacements
    (parenSub (replaceHyphenColon (replaceAmp (pyStrip (pyLower s))))))))

/-- `standardize_text` restricted to string input. -/
def standardizeStr (s : String) : String := String.mk (standardizeList s.data)

/-- `standardize_text` (lines 45-56): non-string inputs normalize to `""`. -/
def standardize_text : PyValue → String
  | .str s => standardizeStr s
  | _ => ""

/-! ## The fuzzy scorer `fuzz.ratio` -/

/-- Recursion engine of `lcsLen`, structurally recursive on a fuel that
bounds the sum of the two lengths (each recursive call shrinks the sum by at
least one). -/
def lcsLenF : Nat → List Char → List Char → Nat
  | _, [], _ => 0
  | _, _ :: _, [] => 0
  | 0, _, _ => 0
  | f + 1, a :: as, b :: bs =>
    if a == b then lcsLenF f as bs + 1
    else max (lcsLenF f (a :: as) bs) (lcsLenF f as (b :: bs))

/-- Length of a longest common subsequence. -/
def lcsLen (a b : List Char) : Nat := lcsLenF (a.length + b.length) a b

/-- `rapidfuzz.fuzz.ratio`: normalized InDel similarity,
`100 * 2*lcs / (|a|+|b|)`, and `100` for two empty strings. -/
def fuzz_ratio (a b : String) : ℚ :=
  if a.data.length + b.data.length = 0 then 100
  else (200 * (lcsLen a.data b.data : ℚ)) / ((a.data.length : ℚ) + (b.data.length : ℚ))

/-! ## The matcher -/

/-- `rapidfuzz.process.extractOne(query, choices, scorer, score_cutoff)`:
the first choice attaining the maximal score, provided that score is
`≥ score_cutoff` (inclusive cutoff, first-encountered choice wins ties),
else `none`. -/
def extractOne (scorer : String → String → ℚ) (query : String) (cutoff : ℚ) :
    List String → Option (String × ℚ)
  | [] => none
  | c :: rest =>
    match extractOne scorer query cutoff rest with
    | none => if cutoff ≤ scorer query c then some (c, scorer query c) else none
    | some (b, bs) =>
      if bs ≤ scorer query c then some (c, scorer query c) else some (b, bs)

/-- One step of the `ref_dict` construction: append the payload to the entry
of the key, or add a fresh entry at the end (Python dicts preserve insertion
order). -/
def insertPayload : List (String × List Payload) → String → Payload →
    List (String × List Payload)
  | [], k, p => [(k, [p])]
  | (k0, ps) :: rest, k, p =>
    if k0 == k then (k0, ps ++ [p]) :: rest
    else (k0, ps) :: insertPayload rest k p

/-- The `ref_dict` construction loop of `process_single_file` (lines 207-217)
over rows already keyed by canonical name. -/
def buildRefDict (rows : List (String × Payload)) : List (String × List Payload) :=
  rows.foldl (fun d r => insertPayload d r.1 r.2) []

/-- `journal in ref_dict` / `ref_dict[journal]`. -/
def dictLookup (d : List (String × List Payload)) (k : String) :
    Option (List Payload) :=
  (d.find? (fun e => e.1 == k)).map (fun e => e.2)

/-- The `("…", "No match found", 0, "", "")` tuple. -/
def noMatchResult (name : String) : MatchResult :=
  ⟨name, "No match found", 0, .str "", .str ""⟩

/-- The body of the per-journal loop of `process_single_file` (lines 223-240):
empty check (`str(journal).strip() == ""`, modelled with `pyStrip`), exact
dictionary hit with score 100 and the first payload, otherwise `extractOne`
with the given scorer and cutoff, else no match.  (`pd.isna(journal)` is
constant false there: every `journal` is the string output of
`standardize_text`.) -/
def processJournal (scorer : String → String → ℚ) (cutoff : ℚ)
    (refDict : List (String × List Payload)) (refJournals : List String)
    (journal : String) : MatchResult :=
  if pyStrip journal.data = [] then noMatchResult "No journal name"
  else
    match dictLookup refDict journal with
    | some ps =>
      ⟨journal, journal, 100, (ps.headD emptyPayload).jif,
        (ps.headD emptyPayload).quartile⟩
    | none =>
      match extractOne scorer journal cutoff refJournals with
      | some (best, score) =>
        let ps := (dictLookup refDict best).getD []
        ⟨journal, best, score, (ps.headD emptyPayload).jif,
          (ps.headD emptyPayload).quartile⟩
      | none => noMatchResult journal

/-- The result-list construction of `process_single_file`: standardize the
uploaded titles and the reference names (both via `astype(str)`), build
`ref_dict` and `ref_journals`, and run the matching loop with `fuzz.ratio`
and `score_cutoff=90` over every input row. -/
def process_single_file (titles : List PyValue)
    (refRows : List (PyValue × Payload)) : List MatchResult :=
  let cleanRows := refRows.map (fun r => (standardize_text (.str (pyStr r.1)), r.2))
  let refDict := buildRefDict cleanRows
  let refJournals := cleanRows.map Prod.fst
  (titles.map (fun t => standardize_text (.str (pyStr t)))).map
    (processJournal fuzz_ratio 90 refDict refJournals)

/-! ## Specification-side helper definitions -/

/-- All payloads of the rows whose key is `k`, in row order. -/
def payloadsOf (rows : List (String × Payload)) (k : String) : List Payload :=
  (rows.filter (fun r => r.1 == k)).map Prod.snd

/-- The payload of the first-loaded row whose key is `k`. -/
def firstRowPayload (rows : List (String × Payload)) (k : String) : Payload :=
  ((rows.find? (fun r => r.1 == k)).map Prod.snd).getD emptyPayload

/-- Recursion engine of `wruns`, structurally recursive on a fuel that
bounds the string length. -/
def wrunsF : Nat → List Char → List (List Char)
  | _, [] => []
  | 0, _ => []
  | f + 1, c :: rest =>
    if isWordChar c then
      (c :: rest.takeWhile isWordChar) :: wrunsF f (rest.dropWhile isWordChar)
    else wrunsF f rest

/-- The maximal runs of word characters of a string (the whole-token
structure the regex `\b` boundaries see). -/
def wruns (s : List Char) : List (List Char) := wrunsF s.length s

/-- The undotted (pure word) keys of `JOURNAL_REPLACEMENTS`. -/
def wordKeysList : List (List Char) :=
  ["intl", "int", "natl", "nat", "sci", "med", "res", "tech", "eng", "phys",
   "chem", "bio", "env", "mgmt", "dev", "edu", "univ"].map String.data

/-- The shape facts about a replacement rule that the idempotence proof
uses: the key is either all word characters or word characters followed by a
single literal dot, and the value is a lower-case word of length at least 6
(every value is strictly longer than every undotted key). -/
abbrev GoodRule (r : String × String) : Prop :=
  ((∀ c ∈ r.1.data, isWordChar c = true) ∨
    (r.1.data.dropLast ≠ [] ∧ r.1.data.getLast? = some '.' ∧
      ∀ c ∈ r.1.data.dropLast, isWordChar c = true)) ∧
  (∀ c ∈ r.2.data, isWordChar c = true) ∧
  (∀ c ∈ r.2.data, lowerChar c = c) ∧
  6 ≤ r.2.data.length

/-! ## Fuel irrelevance and defining equations of the fuelled recursions

Each `…F` function is structurally recursive on a fuel bounding the input
length; with enough fuel the fuel value is irrelevant, which yields the
natural defining equations of the wrappers. -/

theorem parenSubF_congr (f : Nat) :
    ∀ (g : Nat) (s : List Char), s.length ≤ f → s.length ≤ g →
      parenSubF f s = parenSubF g s := by
  induction f with
  | zero =>
    intro g s hf _
    rw [List.length_eq_zero.mp (Nat.le_zero.mp hf)]
    cases g <;> rfl
  | succ f ih =>
    intro g s hf hg
    cases s with
    | nil => cases g <;> rfl
    | cons c rest =>
      cases g with
      | zero => simp at hg
      | succ g' =>
        simp only [List.length_cons, Nat.add_le_add_iff_right] at hf hg
        simp only [parenSubF]
        cases hC : (c == '(')
        · simp only [Bool.false_eq_true, if_false]
          rw [ih g' rest hf hg]
        · simp only [if_true]
          cases hS : scanParenBody rest with
          | none => dsimp only; rw [ih g' rest hf hg]
          | some n =>
            have hd : (rest.drop n).length ≤ rest.length := by
              rw [List.length_drop]; omega
            dsimp only
            rw [ih g' (rest.drop n) (le_trans hd hf) (le_trans hd hg)]

theorem parenSub_nil : parenSub [] = [] := rfl

theorem parenSub_cons (c : Char) (rest : List Char) :
    parenSub (c :: rest) =
      if c == '(' then
        match scanParenBody rest with
        | some n => parenSub (rest.drop n)
        | none => c :: parenSub rest
      else c :: parenSub rest := by
  show parenSubF (c :: rest).length (c :: rest) = _
  simp only [List.length_cons, parenSubF]
  cases hC : (c == '(')
  · simp only [Bool.false_eq_true, if_false]
    rfl
  · simp only [if_true]
    cases hS : scanParenBody rest with
    | none => rfl
    | some n =>
      dsimp only
      exact parenSubF_congr rest.length (rest.drop n).length (rest.drop n)
        (by rw [List.length_drop]; omega) le_rfl

theorem subBAuxF_congr (k : Char) (ks v : List Char) (f : Nat) :
    ∀ (g : Nat) (prev : Option Char) (s : List Char),
      s.length ≤ f → s.length ≤ g →
      subBAuxF k ks v f prev s = subBAuxF k ks v g prev s := by
  induction f with
  | zero =>
    intro g prev s hf _
    rw [List.length_eq_zero.mp (Nat.le_zero.mp hf)]
    cases g <;> rfl
  | succ f ih =>
    intro g prev s hf hg
    cases s with
    | nil => cases g <;> rfl
    | cons c rest =>
      cases g with
      | zero => simp at hg
      | succ g' =>
        simp only [List.length_cons, Nat.add_le_add_iff_right] at hf hg
        simp only [subBAuxF]
        cases hM : keyMatch (k :: ks) prev (c :: rest)
        · simp only [Bool.false_eq_true, if_false]
          rw [ih g' (some c) rest hf hg]
        · simp only [if_true]
          have hd : ((c :: rest).drop (k :: ks).length).length ≤ rest.length := by
            rw [List.length_drop, List.length_cons]
            simp only [List.length_cons]
            omega
          rw [ih g' _ _ (le_trans hd hf) (le_trans hd hg)]

theorem subBAux_nil (k : Char) (ks v : List Char) (prev : Option Char) :
    subBAux k ks v prev [] = [] := rfl

theorem subBAux_cons (k : Char) (ks v : List Char) (prev : Option Char)
    (c : Char) (rest : List Char) :
    subBAux k ks v prev (c :: rest) =
      if keyMatch (k :: ks) prev (c :: rest) then
        v ++ subBAux k ks v (((c :: rest).take (k :: ks).length).getLast?)
              ((c :: rest).drop (k :: ks).length)
      else c :: subBAux k ks v (some c) rest := by
  show subBAuxF k ks v (c :: rest).length prev (c :: rest) = _
  simp only [List.length_cons, subBAuxF]
  cases hM : keyMatch (k :: ks) prev (c :: rest)
  · simp only [Bool.false_eq_true, if_false]
    rfl
  · simp only [if_true]
    have hd : ((c :: rest).drop (k :: ks).length).length ≤ rest.length := by
      rw [List.length_drop, List.length_cons]
      simp only [List.length_cons]
      omega
    exact congrArg (v ++ ·)
      (subBAuxF_congr k ks v rest.length
        ((c :: rest).drop (k :: ks).length).length _ _ hd le_rfl)

theorem splitWordsF_congr (f : Nat) :
    ∀ (g : Nat) (s : List Char), s.length ≤ f → s.length ≤ g →
      splitWordsF f s = splitWordsF g s := by
  induction f with
  | zero =>
    intro g s hf _
    rw [List.length_eq_zero.mp (Nat.le_zero.mp hf)]
    cases g <;> rfl
  | succ f ih =>
    intro g s hf hg
    cases s with
    | nil => cases g <;> rfl
    | cons c rest =>
      cases g with
      | zero => simp at hg
      | succ g' =>
        simp only [List.length_cons, Nat.add_le_add_iff_right] at hf hg
        simp only [splitWordsF]
        cases hC : isSpaceChar c
        · simp only [Bool.false_eq_true, if_false]
          have hd := (List.dropWhile_sublist (l := rest)
            (p := fun d => !(isSpaceChar d))).length_le
          rw [ih g' _ (le_trans hd hf) (le_trans hd hg)]
        · simp only [if_true]
          rw [ih g' rest hf hg]

theorem splitWords_nil : splitWords [] = [] := rfl

theorem splitWords_cons (c : Char) (rest : List Char) :
    splitWords (c :: rest) =
      if isSpaceChar c then splitWords rest
      else (c :: rest.takeWhile (fun d => !(isSpaceChar d))) ::
             splitWords (rest.dropWhile (fun d => !(isSpaceChar d))) := by
  show splitWordsF (c :: rest).length (c :: rest) = _
  simp only [List.length_cons, splitWordsF]
  cases hC : isSpaceChar c
  · simp only [Bool.false_eq_true, if_false]
    have hd := (List.dropWhile_sublist (l := rest)
      (p := fun d => !(isSpaceChar d))).length_le
    rw [splitWordsF_congr rest.length _ _ hd le_rfl]
    rfl
  · simp only [if_true]
    rfl

theorem wrunsF_congr (f : Nat) :
    ∀ (g : Nat) (s : List Char), s.length ≤ f → s.length ≤ g →
      wrunsF f s = wrunsF g s := by
  induction f with
  | zero =>
    intro g s hf _
    rw [List.length_eq_zero.mp (Nat.le_zero.mp hf)]
    cases g <;> rfl
  | succ f ih =>
    intro g s hf hg
    cases s with
    | nil => cases g <;> rfl
    | cons c rest =>
      cases g with
      | zero => simp at hg
      | succ g' =>
        simp only [List.length_cons, Nat.add_le_add_iff_right] at hf hg
        simp only [wrunsF]
        cases hC : isWordChar c
        · simp only [Bool.false_eq_true, if_false]
          rw [ih g' rest hf hg]
        · simp only [if_true]
          have hd := (List.dropWhile_sublist (l := rest)
            (p := isWordChar)).length_le
          rw [ih g' _ (le_trans hd hf) (le_trans hd hg)]

theorem wruns_nil : wruns [] = [] := rfl

theorem wruns_cons (c : Char) (rest : List Char) :
    wruns (c :: rest) =
      if isWordChar c then
        (c :: rest.takeWhile isWordChar) :: wruns (rest.dropWhile isWordChar)
      else wruns rest := by
  show wrunsF (c :: rest).length (c :: rest) = _
  simp only [List.length_cons, wrunsF]
  cases hC : isWordChar c
  · simp only [Bool.false_eq_true, if_false]
    rfl
  · simp only [if_true]
    have hd := (List.dropWhile_sublist (l := rest) (p := isWordChar)).length_le
    rw [wrunsF_congr rest.length _ _ hd le_rfl]
    rfl

theorem lcsLenF_congr (f : Nat) :
    ∀ (g : Nat) (a b : List Char), a.length + b.length ≤ f →
      a.length + b.length ≤ g → lcsLenF f a b = lcsLenF g a b := by
  induction f with
  | zero =>
    intro g a b hf _
    cases a with
    | nil => cases g <;> cases b <;> rfl
    | cons x as => simp at hf
  | succ f ih =>
    intro g a b hf hg
    cases a with
    | nil => cases g <;> cases b <;> rfl
    | cons x as =>
      cases b with
      | nil => cases g <;> rfl
      | cons y bs =>
        cases g with
        | zero => simp at hg
        | succ g' =>
          simp only [List.length_cons] at hf hg
          simp only [lcsLenF]
          cases hxy : (x == y)
          · simp only [Bool.false_eq_true, if_false]
            rw [ih g' (x :: as) bs (by simp only [List.length_cons]; omega)
                 (by simp only [List.length_cons]; omega),
               ih g' as (y :: bs) (by simp only [List.length_cons]; omega)
                 (by simp only [List.length_cons]; omega)]
          · simp only [if_true]
            rw [ih g' as bs (by omega) (by omega)]

theorem lcsLenF_nil_left (f : Nat) (b : List Char) : lcsLenF f [] b = 0 := by
  cases f <;> cases b <;> rfl

theorem lcsLenF_nil_right (f : Nat) (a : List Char) : lcsLenF f a [] = 0 := by
  cases f <;> cases a <;> rfl

theorem lcsLen_nil_left (b : List Char) : lcsLen [] b = 0 :=
  lcsLenF_nil_left _ b

theorem lcsLen_nil_right (a : List Char) : lcsLen a [] = 0 :=
  lcsLenF_nil_right _ a

theorem lcsLen_cons_cons (x : Char) (as : List Char) (y : Char) (bs : List Char) :
    lcsLen (x :: as) (y :: bs) =
      if x == y then lcsLen as bs + 1
      else max (lcsLen (x :: as) bs) (lcsLen as (y :: bs)) := by
  show lcsLenF ((x :: as).length + (y :: bs).length) _ _ = _
  have h : (x :: as).length + (y :: bs).length = (as.length + bs.length + 1) + 1 := by
    simp only [List.length_cons]; omega
  rw [h]
  simp only [lcsLenF]
  cases hxy : (x == y)
  · simp only [Bool.false_eq_true, if_false]
    rw [lcsLenF_congr _ ((x :: as).length + bs.length) (x :: as) bs
        (by simp only [List.length_cons]; omega) le_rfl,
      lcsLenF_congr _ (as.length + (y :: bs).length) as (y :: bs)
        (by simp only [List.length_cons]; omega) le_rfl]
    rfl
  · simp only [if_true]
    rw [lcsLenF_congr _ (as.length + bs.length) as bs (by omega) le_rfl]
    rfl

/-! ## Lemmas about `extractOne` -/

theorem extractOne_mem (scorer : String → String → ℚ) (q : String) (cutoff : ℚ)
    (refs : List String) :
    ∀ b s, extractOne scorer q cutoff refs = some (b, s) →
      b ∈ refs ∧ s = scorer q b ∧ cutoff ≤ s := by
  induction refs with
  | nil => intro b s h; simp [extractOne] at h
  | cons c rest ih =>
    intro b s h
    cases hrest : extractOne scorer q cutoff rest with
    | none =>
      simp only [extractOne, hrest] at h
      by_cases hc : cutoff ≤ scorer q c
      · rw [if_pos hc] at h
        simp only [Option.some.injEq, Prod.mk.injEq] at h
        obtain ⟨rfl, rfl⟩ := h
        exact ⟨List.mem_cons_self .., rfl, hc⟩
      · rw [if_neg hc] at h; exact absurd h (by simp)
    | some p =>
      obtain ⟨b', bs'⟩ := p
      obtain ⟨hb', hbs', hcut'⟩ := ih b' bs' hrest
      simp only [extractOne, hrest] at h
      by_cases hc : bs' ≤ scorer q c
      · rw [if_pos hc] at h
        simp only [Option.some.injEq, Prod.mk.injEq] at h
        obtain ⟨rfl, rfl⟩ := h
        exact ⟨List.mem_cons_self .., rfl, le_trans hcut' hc⟩
      · rw [if_neg hc] at h
        simp only [Option.some.injEq, Prod.mk.injEq] at h
        obtain ⟨rfl, rfl⟩ := h
        exact ⟨List.mem_cons_of_mem _ hb', hbs', hcut'⟩

theorem extractOne_none_of_lt (scorer : String → String → ℚ) (q : String)
    (cutoff : ℚ) (refs : List String)
    (h : ∀ r ∈ refs, scorer q r < cutoff) :
    extractOne scorer q cutoff refs = none := by
  induction refs with
  | nil => rfl
  | cons c rest ih =>
    rw [extractOne, ih (fun r hr => h r (List.mem_cons_of_mem _ hr))]
    rw [if_neg (not_le.mpr (h c (List.mem_cons_self ..)))]

theorem extractOne_max_attained (scorer : String → String → ℚ) (q : String)
    (cutoff T : ℚ) (refs : List String)
    (hatt : ∃ r ∈ refs, scorer q r = T) (hall : ∀ r ∈ refs, scorer q r ≤ T)
    (hc : cutoff ≤ T) :
    ∃ b ∈ refs, scorer q b = T ∧
      extractOne scorer q cutoff refs = some (b, T) := by
  induction refs with
  | nil => obtain ⟨r, hr, _⟩ := hatt; exact absurd hr (List.not_mem_nil r)
  | cons c rest ih =>
    by_cases hcT : scorer q c = T
    · refine ⟨c, List.mem_cons_self .., hcT, ?_⟩
      cases hrest : extractOne scorer q cutoff rest with
      | none =>
        simp only [extractOne, hrest]
        rw [if_pos (hcT ▸ hc), hcT]
      | some p =>
        obtain ⟨b', bs'⟩ := p
        obtain ⟨hb', hbs', _⟩ := extractOne_mem scorer q cutoff rest b' bs' hrest
        have hle : bs' ≤ scorer q c := by
          rw [hbs', hcT]; exact hall b' (List.mem_cons_of_mem _ hb')
        simp only [extractOne, hrest]
        rw [if_pos hle, hcT]
    · have hlt : scorer q c < T :=
        lt_of_le_of_ne (hall c (List.mem_cons_self ..)) hcT
      have hatt' : ∃ r ∈ rest, scorer q r = T := by
        obtain ⟨r, hr, hrT⟩ := hatt
        rcases List.mem_cons.mp hr with rfl | hr'
        · exact absurd hrT hcT
        · exact ⟨r, hr', hrT⟩
      obtain ⟨b, hb, hbT, hE⟩ :=
        ih hatt' (fun r hr => hall r (List.mem_cons_of_mem _ hr))
      refine ⟨b, List.mem_cons_of_mem _ hb, hbT, ?_⟩
      simp only [extractOne, hE]
      rw [if_neg (not_le.mpr hlt)]

theorem extractOne_first_max (scorer : String → String → ℚ) (q : String)
    (cutoff : ℚ) (l₁ l₂ : List String) (c : String)
    (h1 : ∀ r ∈ l₁, scorer q r < scorer q c)
    (h2 : ∀ r ∈ l₂, scorer q r ≤ scorer q c)
    (hc : cutoff ≤ scorer q c) :
    extractOne scorer q cutoff (l₁ ++ c :: l₂) = some (c, scorer q c) := by
  induction l₁ with
  | nil =>
    rw [List.nil_append]
    cases hrest : extractOne scorer q cutoff l₂ with
    | none =>
      simp only [extractOne, hrest]
      rw [if_pos hc]
    | some p =>
      obtain ⟨b', bs'⟩ := p
      obtain ⟨hb', hbs', _⟩ := extractOne_mem scorer q cutoff l₂ b' bs' hrest
      have hle : bs' ≤ scorer q c := by rw [hbs']; exact h2 b' hb'
      simp only [extractOne, hrest]
      rw [if_pos hle]
  | cons a l₁' ih =>
    rw [List.cons_append]
    simp only [extractOne, ih (fun r hr => h1 r (List.mem_cons_of_mem _ hr))]
    rw [if_neg (not_le.mpr (h1 a (List.mem_cons_self ..)))]

/-! ## Lemmas about the reference dictionary -/

theorem dictLookup_insert_same (d : List (String × List Payload)) (k : String)
    (p : Payload) :
    dictLookup (insertPayload d k p) k =
      some ((dictLookup d k).getD [] ++ [p]) := by
  induction d with
  | nil => simp [insertPayload, dictLookup]
  | cons e rest ih =>
    obtain ⟨k0, ps⟩ := e
    by_cases hk : k0 = k
    · subst hk
      simp [insertPayload, dictLookup]
    · have hk' : (k0 == k) = false := beq_eq_false_iff_ne.mpr hk
      simp only [insertPayload, hk', Bool.false_eq_true, if_false]
      simp only [dictLookup, List.find?_cons, hk']
      exact ih

theorem dictLookup_insert_other (d : List (String × List Payload))
    (k k' : String) (p : Payload) (hne : k' ≠ k) :
    dictLookup (insertPayload d k p) k' = dictLookup d k' := by
  induction d with
  | nil =>
    have hk' : (k == k') = false := beq_eq_false_iff_ne.mpr (fun he => hne he.symm)
    simp [insertPayload, dictLookup, List.find?_cons, hk']
  | cons e rest ih =>
    obtain ⟨k0, ps⟩ := e
    by_cases hk : k0 = k
    · subst hk
      have hk' : (k0 == k') = false :=
        beq_eq_false_iff_ne.mpr (fun he => hne he.symm)
      simp [insertPayload, dictLookup, List.find?_cons, hk']
    · have hk' : (k0 == k) = false := beq_eq_false_iff_ne.mpr hk
      simp only [insertPayload, hk', Bool.false_eq_true, if_false]
      simp only [dictLookup, List.find?_cons] at ih ⊢
      cases hk0 : (k0 == k') <;> simp only [hk0, cond_true, cond_false] at ih ⊢
      exact ih

theorem payloadsOf_cons_same (r : String × Payload) (rest : List (String × Payload))
    (k : String) (h : r.1 = k) :
    payloadsOf (r :: rest) k = r.2 :: payloadsOf rest k := by
  simp only [payloadsOf]
  rw [List.filter_cons_of_pos (by simp [h]), List.map_cons]

theorem payloadsOf_cons_other (r : String × Payload) (rest : List (String × Payload))
    (k : String) (h : r.1 ≠ k) :
    payloadsOf (r :: rest) k = payloadsOf rest k := by
  simp only [payloadsOf]
  rw [List.filter_cons_of_neg (by simp [h])]

theorem buildRefDict_lookup_some (rows : List (String × Payload))
    (d : List (String × List Payload)) (k : String) (ps : List Payload)
    (h : dictLookup d k = some ps) :
    dictLookup (rows.foldl (fun d r => insertPayload d r.1 r.2) d) k =
      some (ps ++ payloadsOf rows k) := by
  induction rows generalizing d ps with
  | nil => simpa [payloadsOf]
  | cons r rest ih =>
    rw [List.foldl_cons]
    by_cases hk : r.1 = k
    · have h1 : dictLookup (insertPayload d r.1 r.2) k = some (ps ++ [r.2]) := by
        rw [hk, dictLookup_insert_same, h]; rfl
      rw [ih _ _ h1, payloadsOf_cons_same _ _ _ hk]
      simp
    · have h1 : dictLookup (insertPayload d r.1 r.2) k = some ps := by
        rw [dictLookup_insert_other _ _ _ _ (fun he => hk he.symm), h]
      rw [ih _ _ h1, payloadsOf_cons_other _ _ _ hk]

theorem buildRefDict_lookup_none (rows : List (String × Payload))
    (d : List (String × List Payload)) (k : String)
    (h : dictLookup d k = none) :
    dictLookup (rows.foldl (fun d r => insertPayload d r.1 r.2) d) k =
      if payloadsOf rows k = [] then none else some (payloadsOf rows k) := by
  induction rows generalizing d with
  | nil => simpa [payloadsOf]
  | cons r rest ih =>
    rw [List.foldl_cons]
    by_cases hk : r.1 = k
    · have h1 : dictLookup (insertPayload d r.1 r.2) k = some [r.2] := by
        rw [hk, dictLookup_insert_same, h]; rfl
      rw [buildRefDict_lookup_some rest _ _ _ h1, payloadsOf_cons_same _ _ _ hk]
      simp
    · have h1 : dictLookup (insertPayload d r.1 r.2) k = none := by
        rw [dictLookup_insert_other _ _ _ _ (fun he => hk he.symm), h]
      rw [ih _ h1, payloadsOf_cons_other _ _ _ hk]

theorem buildRefDict_lookup (rows : List (String × Payload)) (k : String) :
    dictLookup (buildRefDict rows) k =
      if payloadsOf rows k = [] then none else some (payloadsOf rows k) :=
  buildRefDict_lookup_none rows [] k rfl

theorem find_eq_head_filter {α : Type} (p : α → Bool) (l : List α) :
    l.find? p = (l.filter p).head? := by
  induction l with
  | nil => rfl
  | cons x rest ih =>
    cases hx : p x
    · rw [List.find?_cons_of_neg _ (by simp [hx]),
        List.filter_cons_of_neg (by simp [hx]), ih]
    · rw [List.find?_cons_of_pos _ hx, List.filter_cons_of_pos hx,
        List.head?_cons]

theorem payloadsOf_headD (rows : List (String × Payload)) (k : String) :
    (payloadsOf rows k).headD emptyPayload = firstRowPayload rows k := by
  rw [payloadsOf, firstRowPayload, find_eq_head_filter, List.headD_eq_head?_getD,
    List.head?_map]

theorem mem_payloadsOf (rows : List (String × Payload)) (k : String)
    (p : Payload) (h : (k, p) ∈ rows) : p ∈ payloadsOf rows k := by
  rw [payloadsOf]
  exact List.mem_map_of_mem _ (List.mem_filter.mpr ⟨h, by simp⟩)

theorem payloadsOf_ne_nil_of_mem_keys (rows : List (String × Payload))
    (k : String) (h : k ∈ rows.map Prod.fst) : payloadsOf rows k ≠ [] := by
  obtain ⟨r, hr, hk⟩ := List.mem_map.mp h
  intro hnil
  have : r.2 ∈ payloadsOf rows k :=
    mem_payloadsOf rows k r.2 (by rw [← hk]; exact hr)
  rw [hnil] at this
  exact List.not_mem_nil _ this

theorem headD_of_lookup_some (rows : List (String × Payload)) (k : String)
    (ps : List Payload) (hl : dictLookup (buildRefDict rows) k = some ps) :
    ps.headD emptyPayload = firstRowPayload rows k := by
  rw [buildRefDict_lookup] at hl
  split at hl
  · exact absurd hl (by simp)
  · have hps : ps = payloadsOf rows k := (Option.some.injEq ..).mp hl.symm
    rw [hps, payloadsOf_headD]

theorem lookup_getD_headD (rows : List (String × Payload)) (b : String)
    (hb : b ∈ rows.map Prod.fst) :
    ((dictLookup (buildRefDict rows) b).getD []).headD emptyPayload =
      firstRowPayload rows b := by
  have hne := payloadsOf_ne_nil_of_mem_keys rows b hb
  rw [buildRefDict_lookup, if_neg hne, Option.getD_some, payloadsOf_headD]

/-! ## Bounds on the fuzzy scorer -/

theorem lcsLenF_le_left (f : Nat) :
    ∀ (a b : List Char), lcsLenF f a b ≤ a.length := by
  induction f with
  | zero => intro a b; cases a <;> cases b <;> simp [lcsLenF]
  | succ f ih =>
    intro a b
    cases a with
    | nil => rw [lcsLenF_nil_left]; exact Nat.zero_le _
    | cons x as =>
      cases b with
      | nil => rw [lcsLenF_nil_right]; exact Nat.zero_le _
      | cons y bs =>
        simp only [lcsLenF, List.length_cons]
        cases hxy : (x == y)
        · simp only [Bool.false_eq_true, if_false]
          apply max_le
          · exact le_trans (ih (x :: as) bs) (by simp)
          · exact le_trans (ih as (y :: bs)) (by omega)
        · simp only [if_true]
          exact Nat.add_le_add_right (ih as bs) 1

theorem lcsLenF_le_right (f : Nat) :
    ∀ (a b : List Char), lcsLenF f a b ≤ b.length := by
  induction f with
  | zero => intro a b; cases a <;> cases b <;> simp [lcsLenF]
  | succ f ih =>
    intro a b
    cases a with
    | nil => rw [lcsLenF_nil_left]; exact Nat.zero_le _
    | cons x as =>
      cases b with
      | nil => rw [lcsLenF_nil_right]; exact Nat.zero_le _
      | cons y bs =>
        simp only [lcsLenF, List.length_cons]
        cases hxy : (x == y)
        · simp only [Bool.false_eq_true, if_false]
          apply max_le
          · exact le_trans (ih (x :: as) bs) (by omega)
          · exact le_trans (ih as (y :: bs)) (by simp)
        · simp only [if_true]
          exact Nat.add_le_add_right (ih as bs) 1

theorem lcsLen_le_left (a b : List Char) : lcsLen a b ≤ a.length :=
  lcsLenF_le_left _ a b

theorem lcsLen_le_right (a b : List Char) : lcsLen a b ≤ b.length :=
  lcsLenF_le_right _ a b

theorem fuzz_ratio_nonneg (a b : String) : 0 ≤ fuzz_ratio a b := by
  rw [fuzz_ratio]
  split
  · norm_num
  · apply div_nonneg
    · positivity
    · positivity

theorem fuzz_ratio_le_100 (a b : String) : fuzz_ratio a b ≤ 100 := by
  rw [fuzz_ratio]
  split
  · exact le_refl _
  · rename_i h
    have hpos : 0 < (a.data.length : ℚ) + (b.data.length : ℚ) := by
      have h1 : 0 < a.data.length + b.data.length := Nat.pos_of_ne_zero h
      exact_mod_cast h1
    rw [div_le_iff₀ hpos]
    have h1 : (lcsLen a.data b.data : ℚ) ≤ a.data.length := by
      exact_mod_cast lcsLen_le_left a.data b.data
    have h2 : (lcsLen a.data b.data : ℚ) ≤ b.data.length := by
      exact_mod_cast lcsLen_le_right a.data b.data
    linarith

/-! ## Branch lemmas for the per-journal loop -/

theorem processJournal_empty (scorer : String → String → ℚ) (cutoff : ℚ)
    (d : List (String × List Payload)) (refs : List String) (journal : String)
    (h : pyStrip journal.data = []) :
    processJournal scorer cutoff d refs journal =
      noMatchResult "No journal name" := by
  rw [processJournal, if_pos h]

theorem processJournal_exact (scorer : String → String → ℚ) (cutoff : ℚ)
    (d : List (String × List Payload)) (refs : List String) (journal : String)
    (ps : List Payload) (h : pyStrip journal.data ≠ [])
    (hl : dictLookup d journal = some ps) :
    processJournal scorer cutoff d refs journal =
      ⟨journal, journal, 100, (ps.headD emptyPayload).jif,
        (ps.headD emptyPayload).quartile⟩ := by
  rw [processJournal, if_neg h]
  simp only [hl]

theorem processJournal_fuzzy (scorer : String → String → ℚ) (cutoff : ℚ)
    (d : List (String × List Payload)) (refs : List String) (journal : String)
    (b : String) (s : ℚ) (h : pyStrip journal.data ≠ [])
    (hl : dictLookup d journal = none)
    (hE : extractOne scorer journal cutoff refs = some (b, s)) :
    processJournal scorer cutoff d refs journal =
      ⟨journal, b, s, (((dictLookup d b).getD []).headD emptyPayload).jif,
        (((dictLookup d b).getD []).headD emptyPayload).quartile⟩ := by
  rw [processJournal, if_neg h]
  simp only [hl, hE]

theorem processJournal_nomatch (scorer : String → String → ℚ) (cutoff : ℚ)
    (d : List (String × List Payload)) (refs : List String) (journal : String)
    (h : pyStrip journal.data ≠ []) (hl : dictLookup d journal = none)
    (hE : extractOne scorer journal cutoff refs = none) :
    processJournal scorer cutoff d refs journal = noMatchResult journal := by
  rw [processJournal, if_neg h]
  simp only [hl, hE]

/-! ## The claims -/

/-- C1: the claim states that `normalize("J. Of Intl. Sci.")` equals
`normalize("Journal of International Science")`.  On the code this is false:
the table entry `'j\\.': 'journal'` is applied as `\bj\.\b`, and a word
boundary can never match between the literal `'.'` and a following space
(both are non-word characters), so `"j."` before a space is never expanded.
The abbreviated form therefore normalizes to `"j of international science"`
while the expanded form normalizes to `"journal of international science"`. -/
theorem c1_abbreviation_equivalence_fails :
    standardize_text (.str "J. Of Intl. Sci.") = "j of international science" ∧
    standardize_text (.str "Journal of International Science") =
      "journal of international science" ∧
    standardize_text (.str "J. Of Intl. Sci.") ≠
      standardize_text (.str "Journal of International Science") := by
  refine ⟨by decide, by decide, by decide⟩

/-- C2: threshold boundary of the matcher.  For a non-empty query with no
exact dictionary hit and any threshold `T`: if the scores of the reference
candidates are all `≤ T` and some candidate attains exactly `T`, the returned
result is an accepted candidate with score exactly `T`; if instead every
candidate scores `≤ T - 1` (strictly below `T`), the result is the no-match
tuple with score 0.  Instantiated at `T = 90` (this variant's cutoff) and
`T = 80` (the cutoff of sibling variants) in the witness. -/
theorem c2_threshold_boundary (scorer : String → String → ℚ) (T : ℚ)
    (dict₁ dict₂ : List (String × List Payload)) (refs₁ refs₂ : List String)
    (q₁ q₂ : String)
    (hq₁ : pyStrip q₁.data ≠ []) (hex₁ : dictLookup dict₁ q₁ = none)
    (hall₁ : ∀ r ∈ refs₁, scorer q₁ r ≤ T)
    (hatt₁ : ∃ r ∈ refs₁, scorer q₁ r = T)
    (hq₂ : pyStrip q₂.data ≠ []) (hex₂ : dictLookup dict₂ q₂ = none)
    (hall₂ : ∀ r ∈ refs₂, scorer q₂ r ≤ T - 1) :
    ((processJournal scorer T dict₁ refs₁ q₁).score = T ∧
      (processJournal scorer T dict₁ refs₁ q₁).best ∈ refs₁ ∧
      scorer q₁ (processJournal scorer T dict₁ refs₁ q₁).best = T) ∧
    processJournal scorer T dict₂ refs₂ q₂ = noMatchResult q₂ := by
  constructor
  · obtain ⟨b, hb, hbT, hE⟩ :=
      extractOne_max_attained scorer q₁ T T refs₁ hatt₁ hall₁ le_rfl
    rw [processJournal_fuzzy scorer T dict₁ refs₁ q₁ b T hq₁ hex₁ hE]
    exact ⟨rfl, hb, hbT⟩
  · have hE : extractOne scorer q₂ T refs₂ = none :=
      extractOne_none_of_lt scorer q₂ T refs₂
        (fun r hr => lt_of_le_of_lt (hall₂ r hr) (by linarith))
    exact processJournal_nomatch scorer T dict₂ refs₂ q₂ hq₂ hex₂ hE

/-- Witness for C2 at both thresholds used across the variants: `T = 90`
accepts a best score of exactly 90 and rejects 89; `T = 80` accepts exactly
80 and rejects 79. -/
theorem c2_threshold_boundary_witness :
    (((processJournal (fun _ r => if r = "a" then (90:ℚ) else 89) 90 []
          ["a"] "q").score = 90 ∧
      (processJournal (fun _ r => if r = "a" then (90:ℚ) else 89) 90 []
          ["a"] "q").best ∈ ["a"] ∧
      (fun (_ r : String) => if r = "a" then (90:ℚ) else 89) "q"
        ((processJournal (fun _ r => if r = "a" then (90:ℚ) else 89) 90 []
          ["a"] "q").best) = 90) ∧
     processJournal (fun _ r => if r = "a" then (90:ℚ) else 89) 90 []
        ["b"] "q" = noMatchResult "q") ∧
    (((processJournal (fun _ r => if r = "c" then (80:ℚ) else 79) 80 []
          ["c"] "q").score = 80 ∧
      (processJournal (fun _ r => if r = "c" then (80:ℚ) else 79) 80 []
          ["c"] "q").best ∈ ["c"] ∧
      (fun (_ r : String) => if r = "c" then (80:ℚ) else 79) "q"
        ((processJournal (fun _ r => if r = "c" then (80:ℚ) else 79) 80 []
          ["c"] "q").best) = 80) ∧
     processJournal (fun _ r => if r = "c" then (80:ℚ) else 79) 80 []
        ["d"] "q" = noMatchResult "q") :=
  ⟨c2_threshold_boundary (fun _ r => if r = "a" then (90:ℚ) else 89) 90
      [] [] ["a"] ["b"] "q" "q" (by decide) rfl
      (by intro r hr; fin_cases hr; norm_num)
      ⟨"a", by simp, by norm_num⟩ (by decide) rfl
      (by intro r hr; fin_cases hr; dsimp only
          rw [if_neg (by decide)]; norm_num),
   c2_threshold_boundary (fun _ r => if r = "c" then (80:ℚ) else 79) 80
      [] [] ["c"] ["d"] "q" "q" (by decide) rfl
      (by intro r hr; fin_cases hr; norm_num)
      ⟨"c", by simp, by norm_num⟩ (by decide) rfl
      (by intro r hr; fin_cases hr; dsimp only
          rw [if_neg (by decide)]; norm_num)⟩

/-- C3 (amended): exact-match priority holds for every query with a
*non-empty* canonical form: if the canonical query is present verbatim in the
reference dictionary, the loop returns it with score 100 and the first-loaded
payload, for every scorer (so the fuzzy scorer is never consulted) and every
cutoff.  The original claim, quantified over *every* query, fails when the
canonical query is the empty string (see the counterexample): the empty-query
branch fires first and returns score 0. -/
theorem c3_exact_match_priority (scorer : String → String → ℚ) (cutoff : ℚ)
    (d : List (String × List Payload)) (refs : List String) (q : String)
    (ps : List Payload) (hq : pyStrip q.data ≠ [])
    (hl : dictLookup d q = some ps) :
    processJournal scorer cutoff d refs q =
      ⟨q, q, 100, (ps.headD emptyPayload).jif,
        (ps.headD emptyPayload).quartile⟩ :=
  processJournal_exact scorer cutoff d refs q ps hq hl

/-- Witness for the amended C3: concrete exact hit (with the scorer left
abstract as a constant-zero function the exact branch never consults). -/
theorem c3_exact_match_priority_witness :
    pyStrip ("nature" : String).data ≠ [] ∧
    dictLookup [("nature", [⟨PyValue.num 50, PyValue.str "Q1"⟩])] "nature" =
      some [⟨PyValue.num 50, PyValue.str "Q1"⟩] ∧
    processJournal (fun _ _ => 0) 90
        [("nature", [⟨PyValue.num 50, PyValue.str "Q1"⟩])] ["nature"] "nature" =
      ⟨"nature", "nature", 100, PyValue.num 50, PyValue.str "Q1"⟩ :=
  ⟨by decide, by decide,
   c3_exact_match_priority (fun _ _ => 0) 90
     [("nature", [⟨PyValue.num 50, PyValue.str "Q1"⟩])] ["nature"] "nature"
     [⟨PyValue.num 50, PyValue.str "Q1"⟩] (by decide) (by decide)⟩

/-- Counterexample to C3 as stated: a reference row whose name normalizes to
the empty canonical key (here `"?"`).  The canonical query `""` is then
present verbatim in the reference key collection, yet the loop returns the
no-match result with score 0, not the key with score 100, because the
empty-query check precedes the exact check. -/
theorem c3_exact_match_counterexample :
    standardize_text (.str "?") = "" ∧
    dictLookup
        (buildRefDict [(standardize_text (.str "?"),
          ⟨PyValue.num 1, PyValue.str "Q1"⟩)])
        (standardize_text (.str "?")) =
      some [⟨PyValue.num 1, PyValue.str "Q1"⟩] ∧
    (processJournal fuzz_ratio 90
        (buildRefDict [(standardize_text (.str "?"),
          ⟨PyValue.num 1, PyValue.str "Q1"⟩)])
        [standardize_text (.str "?")]
        (standardize_text (.str "?"))).score = 0 ∧
    (0 : ℚ) ≠ 100 :=
  ⟨by decide, by decide, by decide, by norm_num⟩

/-- C4: the `ref_dict` construction retains every payload of every row, also
when a canonical key collides across multiple source rows: each row's payload
is a member of the payload list stored under the row's key. -/
theorem c4_collision_retention (rows : List (String × Payload)) (k : String)
    (p : Payload) (h : (k, p) ∈ rows) :
    p ∈ (dictLookup (buildRefDict rows) k).getD [] := by
  have hp := mem_payloadsOf rows k p h
  have hne : payloadsOf rows k ≠ [] := by
    intro hnil; rw [hnil] at hp; exact List.not_mem_nil _ hp
  rw [buildRefDict_lookup, if_neg hne, Option.getD_some]
  exact hp

/-- Witness for C4: two colliding rows for key `"k"`; the payload of the
*second* row is retained in the dictionary entry. -/
theorem c4_collision_retention_witness :
    (("k", (⟨PyValue.num 2, PyValue.str "Q2"⟩ : Payload)) ∈
      [("k", (⟨PyValue.num 1, PyValue.str "Q1"⟩ : Payload)),
       ("k", ⟨PyValue.num 2, PyValue.str "Q2"⟩)]) ∧
    (⟨PyValue.num 2, PyValue.str "Q2"⟩ : Payload) ∈
      (dictLookup (buildRefDict
        [("k", ⟨PyValue.num 1, PyValue.str "Q1"⟩),
         ("k", ⟨PyValue.num 2, PyValue.str "Q2"⟩)]) "k").getD [] :=
  ⟨by decide,
   c4_collision_retention
     [("k", ⟨PyValue.num 1, PyValue.str "Q1"⟩),
      ("k", ⟨PyValue.num 2, PyValue.str "Q2"⟩)] "k"
     ⟨PyValue.num 2, PyValue.str "Q2"⟩ (by decide)⟩

/-- C5: an empty (or whitespace-only, hence "missing") canonical query yields
the no-match tuple with score 0 for every scorer, threshold and reference
set — the fuzzy scorer is never consulted (the result does not depend on it). -/
theorem c5_empty_query (scorer : String → String → ℚ) (cutoff : ℚ)
    (d : List (String × List Payload)) (refs : List String) (q : String)
    (hq : pyStrip q.data = []) :
    processJournal scorer cutoff d refs q = noMatchResult "No journal name" :=
  processJournal_empty scorer cutoff d refs q hq

/-- Witness for C5: the empty query against a non-empty reference set at
cutoff 90 with the real scorer. -/
theorem c5_empty_query_witness :
    pyStrip ("" : String).data = [] ∧
    processJournal fuzz_ratio 90 [("x", [⟨PyValue.num 1, PyValue.str "Q1"⟩])]
        ["x"] "" = noMatchResult "No journal name" :=
  ⟨rfl, c5_empty_query fuzz_ratio 90
    [("x", [⟨PyValue.num 1, PyValue.str "Q1"⟩])] ["x"] "" rfl⟩

/-- C6: the normalizer is a total function (it is a Lean function, so it
cannot raise), and every non-string input value normalizes to the empty
string. -/
theorem c6_normalizer_totality (v : PyValue) (h : ∀ s, v ≠ .str s) :
    standardize_text v = "" := by
  cases v with
  | str s => exact absurd rfl (h s)
  | num q => rfl
  | pyNone => rfl

/-- Witness for C6 at the missing value. -/
theorem c6_normalizer_totality_witness :
    (∀ s, PyValue.pyNone ≠ .str s) ∧ standardize_text PyValue.pyNone = "" :=
  ⟨fun _ h => PyValue.noConfusion h,
   c6_normalizer_totality PyValue.pyNone (fun _ h => PyValue.noConfusion h)⟩

/-- C7: stable tie-break.  For a non-empty query with no exact hit, when the
reference list splits as `l₁ ++ c :: l₂` with every candidate in `l₁` scoring
strictly below `c`, every candidate in `l₂` scoring at most `c` (ties with
`c` allowed and present), and `c` reaching the cutoff, the loop returns
exactly `c` — the first-encountered candidate attaining the maximum, in
reference-list order (the reference list, not a map iteration, drives the
scan). -/
theorem c7_stable_tiebreak (scorer : String → String → ℚ) (cutoff : ℚ)
    (d : List (String × List Payload)) (l₁ l₂ : List String) (c q : String)
    (hq : pyStrip q.data ≠ []) (hex : dictLookup d q = none)
    (h1 : ∀ r ∈ l₁, scorer q r < scorer q c)
    (h2 : ∀ r ∈ l₂, scorer q r ≤ scorer q c)
    (_htie : ∃ r ∈ l₂, scorer q r = scorer q c)
    (hc : cutoff ≤ scorer q c) :
    (processJournal scorer cutoff d (l₁ ++ c :: l₂) q).best = c ∧
    (processJournal scorer cutoff d (l₁ ++ c :: l₂) q).score = scorer q c := by
  have hE := extractOne_first_max scorer q cutoff l₁ l₂ c h1 h2 hc
  rw [processJournal_fuzzy scorer cutoff d (l₁ ++ c :: l₂) q c
    (scorer q c) hq hex hE]
  exact ⟨rfl, rfl⟩

/-- Witness for C7: two candidates tied at 95 behind a low scorer; the
first-encountered of the tied pair is returned. -/
theorem c7_stable_tiebreak_witness :
    (processJournal (fun _ r => if r = "low" then (50:ℚ) else 95) 90 []
        (["low"] ++ "tie1" :: ["tie2"]) "q").best = "tie1" ∧
    (processJournal (fun _ r => if r = "low" then (50:ℚ) else 95) 90 []
        (["low"] ++ "tie1" :: ["tie2"]) "q").score =
      (fun (_ r : String) => if r = "low" then (50:ℚ) else 95) "q" "tie1" :=
  c7_stable_tiebreak (fun _ r => if r = "low" then (50:ℚ) else 95) 90 []
    ["low"] ["tie2"] "tie1" "q" (by decide) rfl
    (by intro r hr; fin_cases hr; dsimp only
        rw [if_pos rfl, if_neg (by decide)]; norm_num)
    (by intro r hr; fin_cases hr; dsimp only
        rw [if_neg (by decide), if_neg (by decide)])
    ⟨"tie2", by simp, by dsimp only; rw [if_neg (by decide), if_neg (by decide)]⟩
    (by dsimp only; rw [if_neg (by decide)]; norm_num)

/-- C9: first-payload selection on collision.  Whenever the loop matches — by
the exact dictionary hit or through the fuzzy scorer — the metadata of the
result is exactly the payload of the first-loaded row for the matched key;
colliding payloads loaded later are retained in the dictionary but never
reported. -/
theorem c9_first_payload (scorer : String → String → ℚ) (cutoff : ℚ)
    (rows : List (String × Payload)) (q : String)
    (hq : pyStrip q.data ≠ []) :
    (∀ ps, dictLookup (buildRefDict rows) q = some ps →
      (processJournal scorer cutoff (buildRefDict rows)
          (rows.map Prod.fst) q).jif = (firstRowPayload rows q).jif ∧
      (processJournal scorer cutoff (buildRefDict rows)
          (rows.map Prod.fst) q).quartile = (firstRowPayload rows q).quartile) ∧
    (dictLookup (buildRefDict rows) q = none →
      ∀ b s, extractOne scorer q cutoff (rows.map Prod.fst) = some (b, s) →
        (processJournal scorer cutoff (buildRefDict rows)
            (rows.map Prod.fst) q).jif = (firstRowPayload rows b).jif ∧
        (processJournal scorer cutoff (buildRefDict rows)
            (rows.map Prod.fst) q).quartile =
          (firstRowPayload rows b).quartile) := by
  constructor
  · intro ps hl
    rw [processJournal_exact scorer cutoff (buildRefDict rows)
      (rows.map Prod.fst) q ps hq hl]
    rw [headD_of_lookup_some rows q ps hl]
    exact ⟨rfl, rfl⟩
  · intro hnone b s hE
    obtain ⟨hb, _, _⟩ :=
      extractOne_mem scorer q cutoff (rows.map Prod.fst) b s hE
    rw [processJournal_fuzzy scorer cutoff (buildRefDict rows)
      (rows.map Prod.fst) q b s hq hnone hE]
    rw [lookup_getD_headD rows b hb]
    exact ⟨rfl, rfl⟩

/-- Witness for C9: two rows collide on key `"k"`; the exact hit reports the
payload of the first-loaded row (`JIF 1`, `Q1`), not the later one. -/
theorem c9_first_payload_witness :
    pyStrip ("k" : String).data ≠ [] ∧
    dictLookup (buildRefDict
        [("k", (⟨PyValue.num 1, PyValue.str "Q1"⟩ : Payload)),
         ("k", ⟨PyValue.num 2, PyValue.str "Q2"⟩)]) "k" =
      some [⟨PyValue.num 1, PyValue.str "Q1"⟩,
            ⟨PyValue.num 2, PyValue.str "Q2"⟩] ∧
    firstRowPayload
        [("k", ⟨PyValue.num 1, PyValue.str "Q1"⟩),
         ("k", ⟨PyValue.num 2, PyValue.str "Q2"⟩)] "k" =
      ⟨PyValue.num 1, PyValue.str "Q1"⟩ ∧
    ((processJournal (fun _ _ => 0) 90
        (buildRefDict [("k", ⟨PyValue.num 1, PyValue.str "Q1"⟩),
                       ("k", ⟨PyValue.num 2, PyValue.str "Q2"⟩)])
        ([("k", (⟨PyValue.num 1, PyValue.str "Q1"⟩ : Payload)),
          ("k", ⟨PyValue.num 2, PyValue.str "Q2"⟩)].map Prod.fst) "k").jif =
      (firstRowPayload [("k", ⟨PyValue.num 1, PyValue.str "Q1"⟩),
                        ("k", ⟨PyValue.num 2, PyValue.str "Q2"⟩)] "k").jif ∧
     (processJournal (fun _ _ => 0) 90
        (buildRefDict [("k", ⟨PyValue.num 1, PyValue.str "Q1"⟩),
                       ("k", ⟨PyValue.num 2, PyValue.str "Q2"⟩)])
        ([("k", (⟨PyValue.num 1, PyValue.str "Q1"⟩ : Payload)),
          ("k", ⟨PyValue.num 2, PyValue.str "Q2"⟩)].map Prod.fst) "k").quartile =
      (firstRowPayload [("k", ⟨PyValue.num 1, PyValue.str "Q1"⟩),
                        ("k", ⟨PyValue.num 2, PyValue.str "Q2"⟩)] "k").quartile) :=
  ⟨by decide, by decide, by decide,
   (c9_first_payload (fun _ _ => 0) 90
     [("k", ⟨PyValue.num 1, PyValue.str "Q1"⟩),
      ("k", ⟨PyValue.num 2, PyValue.str "Q2"⟩)] "k" (by decide)).1
     [⟨PyValue.num 1, PyValue.str "Q1"⟩, ⟨PyValue.num 2, PyValue.str "Q2"⟩]
     (by decide)⟩

/-- C10: the result list of `process_single_file` has exactly one result per
input row, and every result's score is either 0 (empty query or no match) or
between 90 and 100 inclusive (accepted exact or fuzzy match); no score falls
strictly between 0 and 90. -/
theorem c10_score_range (titles : List PyValue)
    (refRows : List (PyValue × Payload)) :
    (process_single_file titles refRows).length = titles.length ∧
    ∀ r ∈ process_single_file titles refRows,
      r.score = 0 ∨ (90 ≤ r.score ∧ r.score ≤ 100) := by
  constructor
  · rw [process_single_file]
    simp only [List.length_map]
  · intro r hr
    rw [process_single_file] at hr
    obtain ⟨j, _, rfl⟩ := List.mem_map.mp hr
    by_cases h0 : pyStrip j.data = []
    · rw [processJournal_empty _ _ _ _ _ h0]
      left; rfl
    · cases hl : dictLookup (buildRefDict ((refRows.map
        (fun r => (standardize_text (.str (pyStr r.1)), r.2))))) j with
      | some ps =>
        rw [processJournal_exact _ _ _ _ _ _ h0 hl]
        right
        exact ⟨by norm_num, by norm_num⟩
      | none =>
        cases hE : extractOne fuzz_ratio j 90 ((refRows.map
          (fun r => (standardize_text (.str (pyStr r.1)), r.2))).map Prod.fst) with
        | none =>
          rw [processJournal_nomatch _ _ _ _ _ h0 hl hE]
          left; rfl
        | some p =>
          obtain ⟨b, s⟩ := p
          obtain ⟨_, hs, hcut⟩ := extractOne_mem fuzz_ratio j 90 _ b s hE
          rw [processJournal_fuzzy _ _ _ _ _ _ _ h0 hl hE]
          right
          exact ⟨hcut, by rw [hs]; exact fuzz_ratio_le_100 j b⟩

/-- Witness for C10: one uploaded title that exactly matches the single
reference row after normalization (score 100), giving one result whose score
is in the allowed range. -/
theorem c10_score_range_witness :
    (process_single_file [.str "Nature"]
        [(.str "Nature", ⟨PyValue.num 50, PyValue.str "Q1"⟩)]).length =
      [PyValue.str "Nature"].length ∧
    ((⟨"nature", "nature", 100, PyValue.num 50, PyValue.str "Q1"⟩ :
        MatchResult) ∈
      process_single_file [.str "Nature"]
        [(.str "Nature", ⟨PyValue.num 50, PyValue.str "Q1"⟩)]) ∧
    ((⟨"nature", "nature", 100, PyValue.num 50, PyValue.str "Q1"⟩ :
        MatchResult).score = 0 ∨
      (90 ≤ (⟨"nature", "nature", 100, PyValue.num 50, PyValue.str "Q1"⟩ :
        MatchResult).score ∧
       (⟨"nature", "nature", 100, PyValue.num 50, PyValue.str "Q1"⟩ :
        MatchResult).score ≤ 100)) :=
  ⟨(c10_score_range [.str "Nature"]
      [(.str "Nature", ⟨PyValue.num 50, PyValue.str "Q1"⟩)]).1,
   by decide,
   (c10_score_range [.str "Nature"]
      [(.str "Nature", ⟨PyValue.num 50, PyValue.str "Q1"⟩)]).2
     ⟨"nature", "nature", 100, PyValue.num 50, PyValue.str "Q1"⟩ (by decide)⟩

/-! ## Idempotence of the normalizer (claim C8)

The proof shows that a normalized string is a fixed point of every stage of
the pipeline.  The key fact is that after the abbreviation loop no maximal
word-character run of the text equals any undotted replacement key, so the
second pass of the loop finds nothing to replace. -/

theorem toNat_lowerChar_of_upper (c : Char)
    (h : 65 ≤ c.toNat ∧ c.toNat ≤ 90) :
    (lowerChar c).toNat = c.toNat + 32 := by
  rw [lowerChar, if_pos h]
  have hv : (c.toNat + 32).isValidChar := Or.inl (by omega)
  rw [Char.ofNat, dif_pos hv]
  rfl

theorem lowerChar_idem (c : Char) : lowerChar (lowerChar c) = lowerChar c := by
  by_cases h : 65 ≤ c.toNat ∧ c.toNat ≤ 90
  · have ht := toNat_lowerChar_of_upper c h
    have hn : ¬(65 ≤ (lowerChar c).toNat ∧ (lowerChar c).toNat ≤ 90) := by omega
    rw [lowerChar, if_neg hn]
  · have hc : lowerChar c = c := by rw [lowerChar, if_neg h]
    rw [hc, hc]

theorem isWordChar_of_lowerChar (c : Char)
    (h : isWordChar (lowerChar c) = true) : isWordChar c = true := by
  by_cases hU : 65 ≤ c.toNat ∧ c.toNat ≤ 90
  · simp only [isWordChar, Bool.or_eq_true, Bool.and_eq_true,
      decide_eq_true_eq]
    exact Or.inl (Or.inl (Or.inl ⟨hU.1, hU.2⟩))
  · rwa [lowerChar, if_neg hU] at h

theorem isSpaceChar_eq_false_of_word (c : Char) (h : isWordChar c = true) :
    isSpaceChar c = false := by
  cases hS : isSpaceChar c with
  | false => rfl
  | true =>
    exfalso
    simp only [isSpaceChar, Char.isWhitespace, Bool.or_eq_true,
      decide_eq_true_eq] at hS
    rcases hS with ((rfl | rfl) | rfl) | rfl <;> revert h <;> decide

theorem isWordO_some (c : Char) : isWordO (some c) = isWordChar c := rfl

theorem isWordO_none : isWordO none = false := rfl

/-! ### Structural facts about `wruns` -/

theorem takeWhile_append_all {α : Type} (p : α → Bool) (a b : List α)
    (h : ∀ x ∈ a, p x = true) :
    (a ++ b).takeWhile p = a ++ b.takeWhile p := by
  induction a with
  | nil => simp
  | cons x a' ih =>
    rw [List.cons_append, List.takeWhile_cons_of_pos
      (h x (List.mem_cons_self ..)), ih (fun y hy => h y (List.mem_cons_of_mem _ hy)),
      List.cons_append]

theorem dropWhile_append_all {α : Type} (p : α → Bool) (a b : List α)
    (h : ∀ x ∈ a, p x = true) :
    (a ++ b).dropWhile p = b.dropWhile p := by
  induction a with
  | nil => simp
  | cons x a' ih =>
    rw [List.cons_append, List.dropWhile_cons_of_pos
      (h x (List.mem_cons_self ..))]
    exact ih (fun y hy => h y (List.mem_cons_of_mem _ hy))

theorem takeWhile_eq_nil_of_head {α : Type} (p : α → Bool) (b : List α)
    (h : ∀ c, b.head? = some c → p c = false) : b.takeWhile p = [] := by
  cases b with
  | nil => rfl
  | cons c b' => exact List.takeWhile_cons_of_neg (by simp [h c rfl])

theorem dropWhile_eq_self_of_head {α : Type} (p : α → Bool) (b : List α)
    (h : ∀ c, b.head? = some c → p c = false) : b.dropWhile p = b := by
  cases b with
  | nil => rfl
  | cons c b' => exact List.dropWhile_cons_of_neg (by simp [h c rfl])

theorem wruns_cons_word_general (c : Char) (rest : List Char)
    (h : isWordChar c = true) :
    wruns (c :: rest) =
      (c :: rest.takeWhile isWordChar) :: wruns (rest.dropWhile isWordChar) := by
  rw [wruns_cons, if_pos h]

theorem wruns_cons_not_word (c : Char) (rest : List Char)
    (h : isWordChar c = false) : wruns (c :: rest) = wruns rest := by
  rw [wruns_cons, if_neg (by simp [h])]

theorem wruns_append_word (a b : List Char) (ha : a ≠ [])
    (haw : ∀ c ∈ a, isWordChar c = true) (hb : isWordO b.head? = false) :
    wruns (a ++ b) = a :: wruns b := by
  cases a with
  | nil => exact absurd rfl ha
  | cons x a' =>
    have hbh : ∀ c, b.head? = some c → isWordChar c = false := by
      intro c hc; rw [hc] at hb; exact hb
    rw [List.cons_append, wruns_cons_word_general x _
      (haw x (List.mem_cons_self ..))]
    rw [takeWhile_append_all _ a' b
      (fun y hy => haw y (List.mem_cons_of_mem _ hy))]
    rw [dropWhile_append_all _ a' b
      (fun y hy => haw y (List.mem_cons_of_mem _ hy))]
    rw [takeWhile_eq_nil_of_head _ b hbh, dropWhile_eq_self_of_head _ b hbh,
      List.append_nil]

theorem wruns_spec (n : Nat) :
    ∀ (t : List Char), t.length ≤ n → ∀ w ∈ wruns t,
      w ≠ [] ∧ (∀ c ∈ w, isWordChar c = true) ∧ (∀ c ∈ w, c ∈ t) := by
  induction n with
  | zero =>
    intro t ht w hw
    rw [List.length_eq_zero.mp (Nat.le_zero.mp ht)] at hw
    rw [wruns_nil] at hw
    exact absurd hw (List.not_mem_nil w)
  | succ n ih =>
    intro t ht w hw
    cases t with
    | nil => rw [wruns_nil] at hw; exact absurd hw (List.not_mem_nil w)
    | cons c rest =>
      simp only [List.length_cons, Nat.add_le_add_iff_right] at ht
      cases hc : isWordChar c with
      | false =>
        rw [wruns_cons_not_word c rest hc] at hw
        obtain ⟨h1, h2, h3⟩ := ih rest ht w hw
        exact ⟨h1, h2, fun d hd => List.mem_cons_of_mem _ (h3 d hd)⟩
      | true =>
        rw [wruns_cons_word_general c rest hc] at hw
        rcases List.mem_cons.mp hw with rfl | hw'
        · refine ⟨by simp, ?_, ?_⟩
          · intro d hd
            rcases List.mem_cons.mp hd with rfl | hd'
            · exact hc
            · exact List.mem_takeWhile_imp hd'
          · intro d hd
            rcases List.mem_cons.mp hd with rfl | hd'
            · exact List.mem_cons_self ..
            · exact List.mem_cons_of_mem _
                ((List.takeWhile_sublist _).subset hd')
        · have hlen : (rest.dropWhile isWordChar).length ≤ n :=
            le_trans (List.dropWhile_sublist _).length_le ht
          obtain ⟨h1, h2, h3⟩ := ih (rest.dropWhile isWordChar) hlen w hw'
          exact ⟨h1, h2, fun d hd => List.mem_cons_of_mem _
            ((List.dropWhile_sublist _).subset (h3 d hd))⟩

theorem wruns_ne_nil (t : List Char) (w : List Char) (hw : w ∈ wruns t) :
    w ≠ [] :=
  (wruns_spec t.length t le_rfl w hw).1

theorem wruns_all_word (t : List Char) (w : List Char) (hw : w ∈ wruns t) :
    ∀ c ∈ w, isWordChar c = true :=
  (wruns_spec t.length t le_rfl w hw).2.1

theorem wruns_subset (t : List Char) (w : List Char) (hw : w ∈ wruns t) :
    ∀ c ∈ w, c ∈ t :=
  (wruns_spec t.length t le_rfl w hw).2.2

theorem map_id_on {α : Type} (f : α → α) (l : List α)
    (h : ∀ a ∈ l, f a = a) : l.map f = l := by
  induction l with
  | nil => rfl
  | cons x l' ih =>
    rw [List.map_cons, h x (List.mem_cons_self ..),
      ih (fun a ha => h a (List.mem_cons_of_mem _ ha))]

theorem punctChar_word (c : Char) (h : isWordChar c = true) :
    (if !(isWordChar c) && !(isSpaceChar c) then ' ' else c) = c := by
  rw [h]; rfl

theorem punctChar_space_negation (c : Char) :
    (!(isSpaceChar (if !(isWordChar c) && !(isSpaceChar c) then ' ' else c)))
      = isWordChar c := by
  by_cases hw : isWordChar c = true
  · rw [punctChar_word c hw, isSpaceChar_eq_false_of_word c hw, hw]
    rfl
  · rw [Bool.not_eq_true] at hw
    by_cases hs : isSpaceChar c = true
    · rw [if_neg (by rw [hw, hs]; simp), hs, hw]
      rfl
    · rw [Bool.not_eq_true] at hs
      rw [if_pos (by rw [hw, hs]; rfl), hw]
      decide

theorem splitWords_stripPunct_aux (n : Nat) :
    ∀ (t : List Char), t.length ≤ n → splitWords (stripPunct t) = wruns t := by
  have hfun : ((fun d => !(isSpaceChar d)) ∘
      (fun c => if !(isWordChar c) && !(isSpaceChar c) then ' ' else c))
      = isWordChar := funext punctChar_space_negation
  induction n with
  | zero =>
    intro t ht
    rw [List.length_eq_zero.mp (Nat.le_zero.mp ht)]
    rfl
  | succ n ih =>
    intro t ht
    cases t with
    | nil => rfl
    | cons c rest =>
      simp only [List.length_cons, Nat.add_le_add_iff_right] at ht
      rw [stripPunct, List.map_cons]
      by_cases hw : isWordChar c = true
      · rw [punctChar_word c hw,
          splitWords_cons, if_neg (by rw [isSpaceChar_eq_false_of_word c hw]; simp),
          List.takeWhile_map, List.dropWhile_map, hfun]
        rw [map_id_on _ _ (fun a ha =>
          punctChar_word a (List.mem_takeWhile_imp ha))]
        have hd : (rest.dropWhile isWordChar).length ≤ n :=
          le_trans (List.dropWhile_sublist _).length_le ht
        rw [show (rest.dropWhile isWordChar).map
            (fun c => if !(isWordChar c) && !(isSpaceChar c) then ' ' else c)
            = stripPunct (rest.dropWhile isWordChar) from rfl]
        rw [ih _ hd, wruns_cons_word_general c rest hw]
      · rw [Bool.not_eq_true] at hw
        by_cases hs : isSpaceChar c = true
        · have hpc : (if !(isWordChar c) && !(isSpaceChar c) then ' ' else c)
              = c := by rw [if_neg (by rw [hw, hs]; simp)]
          rw [hpc, splitWords_cons, if_pos hs,
            show rest.map
              (fun c => if !(isWordChar c) && !(isSpaceChar c) then ' ' else c)
              = stripPunct rest from rfl,
            ih rest ht, wruns_cons_not_word c rest hw]
        · rw [Bool.not_eq_true] at hs
          have hpc : (if !(isWordChar c) && !(isSpaceChar c) then ' ' else c)
              = ' ' := by rw [if_pos (by rw [hw, hs]; rfl)]
          rw [hpc, splitWords_cons, if_pos (by decide),
            show rest.map
              (fun c => if !(isWordChar c) && !(isSpaceChar c) then ' ' else c)
              = stripPunct rest from rfl,
            ih rest ht, wruns_cons_not_word c rest hw]

theorem splitWords_stripPunct (t : List Char) :
    splitWords (stripPunct t) = wruns t :=
  splitWords_stripPunct_aux t.length t le_rfl

theorem wruns_join (ws : List (List Char))
    (h : ∀ w ∈ ws, w ≠ [] ∧ ∀ c ∈ w, isWordChar c = true) :
    wruns (joinSpace ws) = ws := by
  induction ws with
  | nil => exact wruns_nil
  | cons w ws' ih =>
    obtain ⟨hne, hword⟩ := h w (List.mem_cons_self ..)
    cases ws' with
    | nil =>
      show wruns w = [w]
      have := wruns_append_word w [] hne hword (by rfl)
      rw [List.append_nil] at this
      rw [this, wruns_nil]
    | cons x ws'' =>
      show wruns (w ++ ' ' :: joinSpace (x :: ws'')) = w :: x :: ws''
      rw [wruns_append_word w (' ' :: joinSpace (x :: ws'')) hne hword
        (by rw [List.head?_cons]; rfl)]
      rw [wruns_cons_not_word ' ' _ (by decide)]
      rw [ih (fun u hu => h u (List.mem_cons_of_mem _ hu))]

/-! ### Character-class preservation and stage identity lemmas -/

theorem mem_of_getLast (l : List Char) (a : Char) (h : l.getLast? = some a) :
    a ∈ l := by
  obtain ⟨l', rfl⟩ := List.getLast?_eq_some_iff.mp h
  exact List.mem_append_right _ (List.mem_singleton.mpr rfl)

theorem subBAux_chars (P : Char → Prop) (k : Char) (ks v : List Char)
    (hv : ∀ c ∈ v, P c) (n : Nat) :
    ∀ (s : List Char), s.length ≤ n → ∀ prev, (∀ c ∈ s, P c) →
      ∀ c ∈ subBAux k ks v prev s, P c := by
  induction n with
  | zero =>
    intro s hlen prev _ c hc
    rw [List.length_eq_zero.mp (Nat.le_zero.mp hlen)] at hc
    exact absurd hc (List.not_mem_nil c)
  | succ n ih =>
    intro s hlen prev hs c hc
    cases s with
    | nil => exact absurd hc (List.not_mem_nil c)
    | cons x rest =>
      simp only [List.length_cons, Nat.add_le_add_iff_right] at hlen
      rw [subBAux_cons] at hc
      split at hc
      · rcases List.mem_append.mp hc with hcv | hcr
        · exact hv c hcv
        · have hsub : ((x :: rest).drop (k :: ks).length).length ≤ n := by
            rw [List.length_drop, List.length_cons]
            simp only [List.length_cons]
            omega
          exact ih _ hsub _
            (fun d hd => hs d (List.drop_subset _ _ hd)) c hcr
      · rcases List.mem_cons.mp hc with rfl | hcr
        · exact hs c (List.mem_cons_self ..)
        · exact ih rest hlen _
            (fun d hd => hs d (List.mem_cons_of_mem _ hd)) c hcr

theorem reSubWordB_chars (P : Char → Prop) (key val : String)
    (hv : ∀ c ∈ val.data, P c) (s : List Char) (hs : ∀ c ∈ s, P c) :
    ∀ c ∈ reSubWordB key val s, P c := by
  rw [reSubWordB]
  cases key.data with
  | nil => exact hs
  | cons k ks => exact subBAux_chars P k ks val.data hv s.length s le_rfl none hs

theorem foldRules_chars (P : Char → Prop) (rules : List (String × String))
    (hr : ∀ r ∈ rules, ∀ c ∈ (r.2 : String).data, P c) :
    ∀ (t : List Char), (∀ c ∈ t, P c) →
      ∀ c ∈ rules.foldl (fun x r => reSubWordB r.1 r.2 x) t, P c := by
  induction rules with
  | nil => intro t ht; exact ht
  | cons r rest ih =>
    intro t ht
    rw [List.foldl_cons]
    exact ih (fun r' hr' => hr r' (List.mem_cons_of_mem _ hr'))
      (reSubWordB r.1 r.2 t)
      (reSubWordB_chars P r.1 r.2 (hr r (List.mem_cons_self ..)) t ht)

theorem parenSub_subset (n : Nat) :
    ∀ (s : List Char), s.length ≤ n → ∀ c ∈ parenSub s, c ∈ s := by
  induction n with
  | zero =>
    intro s hlen c hc
    rw [List.length_eq_zero.mp (Nat.le_zero.mp hlen)] at hc
    exact absurd hc (List.not_mem_nil c)
  | succ n ih =>
    intro s hlen c hc
    cases s with
    | nil => exact absurd hc (List.not_mem_nil c)
    | cons x rest =>
      simp only [List.length_cons, Nat.add_le_add_iff_right] at hlen
      rw [parenSub_cons] at hc
      split at hc
      · cases hS : scanParenBody rest with
        | some m =>
          rw [hS] at hc
          have hsub : (rest.drop m).length ≤ n := by
            rw [List.length_drop]; omega
          exact List.mem_cons_of_mem _
            (List.drop_subset _ _ (ih _ hsub c hc))
        | none =>
          rw [hS] at hc
          rcases List.mem_cons.mp hc with rfl | hcr
          · exact List.mem_cons_self ..
          · exact List.mem_cons_of_mem _ (ih rest hlen c hcr)
      · rcases List.mem_cons.mp hc with rfl | hcr
        · exact List.mem_cons_self ..
        · exact List.mem_cons_of_mem _ (ih rest hlen c hcr)

theorem replaceAmp_cons (c : Char) (s : List Char) :
    replaceAmp (c :: s) =
      if c == '&' then 'a' :: 'n' :: 'd' :: replaceAmp s
      else c :: replaceAmp s := rfl

theorem replaceAmp_chars (P : Char → Prop) (ha : P 'a') (hn : P 'n')
    (hd : P 'd') (s : List Char) (hs : ∀ c ∈ s, P c) :
    ∀ c ∈ replaceAmp s, P c := by
  induction s with
  | nil => intro c hc; exact absurd hc (List.not_mem_nil c)
  | cons x rest ih =>
    intro c hc
    rw [replaceAmp_cons] at hc
    have hrest := ih (fun d hd' => hs d (List.mem_cons_of_mem _ hd'))
    split at hc
    · rcases List.mem_cons.mp hc with rfl | hc1
      · exact ha
      rcases List.mem_cons.mp hc1 with rfl | hc2
      · exact hn
      rcases List.mem_cons.mp hc2 with rfl | hc3
      · exact hd
      · exact hrest c hc3
    · rcases List.mem_cons.mp hc with rfl | hcr
      · exact hs c (List.mem_cons_self ..)
      · exact hrest c hcr

theorem replaceHyphenColon_chars (P : Char → Prop) (hsp : P ' ')
    (s : List Char) (hs : ∀ c ∈ s, P c) :
    ∀ c ∈ replaceHyphenColon s, P c := by
  intro c hc
  rw [replaceHyphenColon] at hc
  obtain ⟨d, hd, hdc⟩ := List.mem_map.mp hc
  by_cases h : (d == '-' || d == ':') = true
  · rw [if_pos h] at hdc; rw [← hdc]; exact hsp
  · rw [if_neg h] at hdc; rw [← hdc]; exact hs d hd

theorem pyStrip_subset (s : List Char) : ∀ c ∈ pyStrip s, c ∈ s := by
  intro c hc
  rw [pyStrip] at hc
  rw [List.mem_reverse] at hc
  have h1 := (List.dropWhile_sublist (l := (s.dropWhile isSpaceChar).reverse)
    (p := isSpaceChar)).subset hc
  rw [List.mem_reverse] at h1
  exact (List.dropWhile_sublist (l := s) (p := isSpaceChar)).subset h1

theorem pyLower_lower_fixed (s : List Char) :
    ∀ c ∈ pyLower s, lowerChar c = c := by
  intro c hc
  obtain ⟨d, _, hdc⟩ := List.mem_map.mp hc
  rw [← hdc]
  exact lowerChar_idem d

/-! ### Identity of each stage on canonical strings -/

theorem pyLower_id (s : List Char) (h : ∀ c ∈ s, lowerChar c = c) :
    pyLower s = s :=
  map_id_on lowerChar s h

theorem replaceAmp_id (s : List Char) (h : ∀ c ∈ s, c ≠ '&') :
    replaceAmp s = s := by
  induction s with
  | nil => rfl
  | cons x rest ih =>
    rw [replaceAmp_cons,
      if_neg (by simp [h x (List.mem_cons_self ..)]),
      ih (fun d hd => h d (List.mem_cons_of_mem _ hd))]

theorem replaceHyphenColon_id (s : List Char)
    (h : ∀ c ∈ s, c ≠ '-' ∧ c ≠ ':') : replaceHyphenColon s = s := by
  apply map_id_on
  intro c hc
  rw [if_neg (by simp [(h c hc).1, (h c hc).2])]

theorem parenSub_id_aux (n : Nat) :
    ∀ (s : List Char), s.length ≤ n → (∀ c ∈ s, c ≠ '(') →
      parenSub s = s := by
  induction n with
  | zero =>
    intro s hlen _
    rw [List.length_eq_zero.mp (Nat.le_zero.mp hlen)]
    rfl
  | succ n ih =>
    intro s hlen hs
    cases s with
    | nil => rfl
    | cons x rest =>
      simp only [List.length_cons, Nat.add_le_add_iff_right] at hlen
      rw [parenSub_cons,
        if_neg (by simp [hs x (List.mem_cons_self ..)]),
        ih rest hlen (fun d hd => hs d (List.mem_cons_of_mem _ hd))]

theorem parenSub_id (s : List Char) (h : ∀ c ∈ s, c ≠ '(') :
    parenSub s = s :=
  parenSub_id_aux s.length s le_rfl h

theorem stripPunct_id (s : List Char)
    (h : ∀ c ∈ s, isWordChar c = true ∨ c = ' ') : stripPunct s = s := by
  apply map_id_on
  intro c hc
  rcases h c hc with hw | rfl
  · exact punctChar_word c hw
  · rfl

theorem pyStrip_id (s : List Char)
    (hh : ∀ c, s.head? = some c → isSpaceChar c = false)
    (hl : ∀ c, s.getLast? = some c → isSpaceChar c = false) :
    pyStrip s = s := by
  rw [pyStrip, dropWhile_eq_self_of_head _ s hh,
    dropWhile_eq_self_of_head _ s.reverse
      (fun c hc => hl c (by rwa [List.head?_reverse] at hc)),
    List.reverse_reverse]

/-! ### Structure of `joinSpace` output -/

theorem joinSpace_chars (ws : List (List Char)) :
    ∀ c ∈ joinSpace ws, (∃ w ∈ ws, c ∈ w) ∨ c = ' ' := by
  induction ws with
  | nil => intro c hc; exact absurd hc (List.not_mem_nil c)
  | cons w ws' ih =>
    intro c hc
    cases ws' with
    | nil => exact Or.inl ⟨w, List.mem_cons_self .., hc⟩
    | cons x ws'' =>
      rw [show joinSpace (w :: x :: ws'') = w ++ ' ' :: joinSpace (x :: ws'')
        from rfl] at hc
      rcases List.mem_append.mp hc with hcw | hcr
      · exact Or.inl ⟨w, List.mem_cons_self .., hcw⟩
      · rcases List.mem_cons.mp hcr with rfl | hcr'
        · exact Or.inr rfl
        · rcases ih c hcr' with ⟨u, hu, hcu⟩ | hsp
          · exact Or.inl ⟨u, List.mem_cons_of_mem _ hu, hcu⟩
          · exact Or.inr hsp

theorem joinSpace_ne_nil (w : List Char) (ws : List (List Char))
    (hw : w ≠ []) : joinSpace (w :: ws) ≠ [] := by
  cases ws with
  | nil => exact hw
  | cons x ws' =>
    show w ++ ' ' :: joinSpace (x :: ws') ≠ []
    simp

theorem joinSpace_head (ws : List (List Char))
    (h : ∀ w ∈ ws, w ≠ []) (c : Char)
    (hc : (joinSpace ws).head? = some c) : ∃ w ∈ ws, c ∈ w := by
  cases ws with
  | nil => exact absurd hc (by simp [joinSpace])
  | cons w ws' =>
    have hw := h w (List.mem_cons_self ..)
    cases ws' with
    | nil =>
      refine ⟨w, List.mem_cons_self .., ?_⟩
      exact List.mem_of_mem_head? (by rwa [show joinSpace [w] = w from rfl] at hc)
    | cons x ws'' =>
      rw [show joinSpace (w :: x :: ws'') = w ++ ' ' :: joinSpace (x :: ws'')
        from rfl, List.head?_append] at hc
      cases hwh : w.head? with
      | none => exact absurd (List.head?_eq_none_iff.mp hwh) hw
      | some d =>
        rw [hwh] at hc
        simp only [Option.or_some, Option.some.injEq] at hc
        subst hc
        exact ⟨w, List.mem_cons_self .., List.mem_of_mem_head? hwh⟩

theorem joinSpace_getLast (ws : List (List Char))
    (h : ∀ w ∈ ws, w ≠ []) (c : Char)
    (hc : (joinSpace ws).getLast? = some c) : ∃ w ∈ ws, c ∈ w := by
  induction ws with
  | nil => exact absurd hc (by simp [joinSpace])
  | cons w ws' ih =>
    have hw := h w (List.mem_cons_self ..)
    cases ws' with
    | nil =>
      exact ⟨w, List.mem_cons_self ..,
        mem_of_getLast w c (by rwa [show joinSpace [w] = w from rfl] at hc)⟩
    | cons x ws'' =>
      rw [show joinSpace (w :: x :: ws'') = w ++ ' ' :: joinSpace (x :: ws'')
        from rfl, List.getLast?_append] at hc
      have hxne : joinSpace (x :: ws'') ≠ [] :=
        joinSpace_ne_nil x ws'' (h x (List.mem_cons_of_mem _ (List.mem_cons_self ..)))
      have hlast : (' ' :: joinSpace (x :: ws'')).getLast? =
          (joinSpace (x :: ws'')).getLast? := by
        cases hj : joinSpace (x :: ws'') with
        | nil => exact absurd hj hxne
        | cons y ys => exact List.getLast?_cons_cons
      rw [hlast] at hc
      cases hg : (joinSpace (x :: ws'')).getLast? with
      | none =>
        rw [hg] at hc
        simp only [Option.none_or] at hc
        exact absurd (List.getLast?_eq_none_iff.mp hg) hxne
      | some d =>
        rw [hg] at hc
        simp only [Option.or_some, Option.some.injEq] at hc
        subst hc
        obtain ⟨u, hu, hcu⟩ := ih
          (fun v hv => h v (List.mem_cons_of_mem _ hv)) hg
        exact ⟨u, List.mem_cons_of_mem _ hu, hcu⟩

/-! ### Facts about `keyMatch` -/

theorem isWordO_getLast_word (l : List Char) (hne : l ≠ [])
    (hw : ∀ c ∈ l, isWordChar c = true) : isWordO l.getLast? = true := by
  cases hg : l.getLast? with
  | none => exact absurd (List.getLast?_eq_none_iff.mp hg) hne
  | some a => exact hw a (mem_of_getLast l a hg)

theorem keyMatch_head_word (k : Char) (ks : List Char) (prev : Option Char)
    (s : List Char) (hk : isWordChar k = true)
    (h : keyMatch (k :: ks) prev s = true) :
    ∃ c rest, s = c :: rest ∧ isWordChar c = true := by
  rw [keyMatch] at h
  simp only [Bool.and_eq_true] at h
  obtain ⟨⟨hcl, _⟩, _⟩ := h
  rw [caselessAt] at hcl
  rw [beq_iff_eq] at hcl
  cases s with
  | nil => simp at hcl
  | cons c rest =>
    refine ⟨c, rest, rfl, ?_⟩
    rw [List.length_cons, List.take_succ_cons, List.map_cons] at hcl
    have hc : lowerChar c = k := (List.cons.injEq .. |>.mp hcl).1
    exact isWordChar_of_lowerChar c (by rw [hc]; exact hk)

theorem keyMatch_false_of_word_prev (k : Char) (ks : List Char) (p : Char)
    (s : List Char) (hk : isWordChar k = true) (hp : isWordChar p = true) :
    keyMatch (k :: ks) (some p) s = false := by
  cases hm : keyMatch (k :: ks) (some p) s with
  | false => rfl
  | true =>
    exfalso
    obtain ⟨c, rest, rfl, hc⟩ := keyMatch_head_word k ks (some p) s hk hm
    rw [keyMatch] at hm
    simp only [Bool.and_eq_true] at hm
    obtain ⟨⟨_, hb⟩, _⟩ := hm
    rw [List.head?_cons, wordBoundary, isWordO_some, isWordO_some, hp, hc] at hb
    simp at hb

theorem keyMatch_false_of_nonword_head (k : Char) (ks : List Char)
    (prev : Option Char) (d : Char) (rest : List Char)
    (hk : isWordChar k = true) (hd : isWordChar d = false) :
    keyMatch (k :: ks) prev (d :: rest) = false := by
  cases hm : keyMatch (k :: ks) prev (d :: rest) with
  | false => rfl
  | true =>
    exfalso
    obtain ⟨c, rest', heq, hc⟩ :=
      keyMatch_head_word k ks prev (d :: rest) hk hm
    rw [(List.cons.injEq .. |>.mp heq).1] at hd
    rw [hd] at hc
    exact absurd hc (by simp)

theorem keyMatch_decompose (k : Char) (ks : List Char) (prev : Option Char)
    (s : List Char) (hlc : ∀ c ∈ s, lowerChar c = c)
    (h : keyMatch (k :: ks) prev s = true) :
    s = (k :: ks) ++ s.drop (k :: ks).length ∧
    wordBoundary ((k :: ks).getLast?) ((s.drop (k :: ks).length).head?) = true := by
  rw [keyMatch] at h
  simp only [Bool.and_eq_true] at h
  obtain ⟨⟨hcl, _⟩, hb2⟩ := h
  rw [caselessAt, beq_iff_eq] at hcl
  rw [map_id_on lowerChar _
    (fun c hc => hlc c (List.take_subset _ _ hc))] at hcl
  have htake : s.take (k :: ks).length = k :: ks := hcl
  constructor
  · conv_lhs => rw [← List.take_append_drop (k :: ks).length s]
    rw [htake]
  · rwa [htake] at hb2

theorem keyMatch_of_run (k : Char) (ks : List Char) (prev : Option Char)
    (t : List Char) (hkw : ∀ c ∈ k :: ks, isWordChar c = true)
    (hfix : ∀ c ∈ k :: ks, lowerChar c = c)
    (hprev : isWordO prev = false) (ht : isWordO t.head? = false) :
    keyMatch (k :: ks) prev ((k :: ks) ++ t) = true := by
  rw [keyMatch]
  have h1 : caselessAt (k :: ks) ((k :: ks) ++ t) = true := by
    rw [caselessAt, List.take_left, map_id_on lowerChar _ hfix]
    exact beq_self_eq_true _
  have h2 : wordBoundary prev ((k :: ks) ++ t).head? = true := by
    rw [List.cons_append, List.head?_cons, wordBoundary, isWordO_some,
      hkw k (List.mem_cons_self ..), hprev]
    rfl
  have h3 : wordBoundary ((((k :: ks) ++ t).take (k :: ks).length).getLast?)
      ((((k :: ks) ++ t).drop (k :: ks).length).head?) = true := by
    rw [List.take_left, List.drop_left, wordBoundary,
      isWordO_getLast_word (k :: ks) (by simp) hkw, ht]
    rfl
  rw [h1, h2, h3]
  rfl

/-! ### Copying a word run through the substitution scan -/

theorem subBAux_copy_run (k : Char) (ks v : List Char)
    (hk : isWordChar k = true) :
    ∀ (R : List Char), R ≠ [] → (∀ c ∈ R, isWordChar c = true) →
      ∀ (s' : List Char) (prev : Option Char),
        keyMatch (k :: ks) prev (R ++ s') = false →
        ∃ p, isWordChar p = true ∧
          subBAux k ks v prev (R ++ s') = R ++ subBAux k ks v (some p) s' := by
  intro R
  induction R with
  | nil => intro h; exact absurd rfl h
  | cons x R' ih =>
    intro _ hRw s' prev hm
    cases R' with
    | nil =>
      refine ⟨x, hRw x (List.mem_cons_self ..), ?_⟩
      rw [List.cons_append, List.nil_append] at hm ⊢
      rw [subBAux_cons, if_neg (by rw [hm]; simp)]
      rfl
    | cons y R'' =>
      have hx := hRw x (List.mem_cons_self ..)
      rw [List.cons_append] at hm
      obtain ⟨p, hp, heq⟩ := ih (by simp)
        (fun c hc => hRw c (List.mem_cons_of_mem _ hc)) s' (some x)
        (keyMatch_false_of_word_prev k ks x _ hk hx)
      refine ⟨p, hp, ?_⟩
      rw [List.cons_append, subBAux_cons, if_neg (by rw [hm]; simp), heq,
        List.cons_append]
      rfl

/-! ### The substitution is the identity on canonical strings -/

theorem subBAux_id_of_dot (k : Char) (ks v : List Char)
    (hdot : '.' ∈ k :: ks) (n : Nat) :
    ∀ (s : List Char), s.length ≤ n → (∀ c ∈ s, lowerChar c ≠ '.') →
      ∀ prev, subBAux k ks v prev s = s := by
  induction n with
  | zero =>
    intro s hlen _ prev
    rw [List.length_eq_zero.mp (Nat.le_zero.mp hlen)]
    rfl
  | succ n ih =>
    intro s hlen hs prev
    cases s with
    | nil => rfl
    | cons c rest =>
      simp only [List.length_cons, Nat.add_le_add_iff_right] at hlen
      have hm : keyMatch (k :: ks) prev (c :: rest) = false := by
        cases hm : keyMatch (k :: ks) prev (c :: rest) with
        | false => rfl
        | true =>
          exfalso
          rw [keyMatch] at hm
          simp only [Bool.and_eq_true] at hm
          obtain ⟨⟨hcl, _⟩, _⟩ := hm
          rw [caselessAt, beq_iff_eq] at hcl
          have : '.' ∈ ((c :: rest).take (k :: ks).length).map lowerChar := by
            rw [hcl]; exact hdot
          obtain ⟨d, hd, hdc⟩ := List.mem_map.mp this
          exact hs d (List.take_subset _ _ hd) hdc
      rw [subBAux_cons, if_neg (by rw [hm]; simp),
        ih rest hlen (fun d hd => hs d (List.mem_cons_of_mem _ hd)) (some c)]

theorem subBAux_id_word (k : Char) (ks v : List Char)
    (hkw : ∀ c ∈ k :: ks, isWordChar c = true) (n : Nat) :
    ∀ (s : List Char), s.length ≤ n →
      (∀ c ∈ s, isWordChar c = true ∨ c = ' ') →
      (∀ c ∈ s, lowerChar c = c) →
      (∀ w ∈ wruns s, w ≠ (k :: ks)) →
      ∀ prev, isWordO prev = false →
        subBAux k ks v prev s = s := by
  induction n with
  | zero =>
    intro s hlen _ _ _ prev _
    rw [List.length_eq_zero.mp (Nat.le_zero.mp hlen)]
    rfl
  | succ n ih =>
    intro s hlen hchars hlc hruns prev hprev
    by_cases hm : keyMatch (k :: ks) prev s = true
    · exfalso
      obtain ⟨hsplit, hb⟩ := keyMatch_decompose k ks prev s hlc hm
      set t := s.drop (k :: ks).length with ht
      have hlast : isWordO (k :: ks).getLast? = true :=
        isWordO_getLast_word (k :: ks) (by simp) hkw
      have hth : isWordO t.head? = false := by
        rw [wordBoundary, hlast] at hb
        cases hh : isWordO t.head? with
        | false => rfl
        | true => rw [hh] at hb; simp at hb
      have hwr : wruns s = (k :: ks) :: wruns t := by
        conv_lhs => rw [hsplit]
        exact wruns_append_word (k :: ks) t (by simp) hkw hth
      exact hruns (k :: ks) (hwr ▸ List.mem_cons_self ..) rfl
    · rw [Bool.not_eq_true] at hm
      cases s with
      | nil => rfl
      | cons c rest =>
        simp only [List.length_cons, Nat.add_le_add_iff_right] at hlen
        rcases hchars c (List.mem_cons_self ..) with hcw | rfl
        · -- leading word run is copied unchanged
          have hk : isWordChar k = true := hkw k (List.mem_cons_self ..)
          have hsplit : c :: rest =
              (c :: rest.takeWhile isWordChar) ++ rest.dropWhile isWordChar := by
            rw [List.cons_append, List.takeWhile_append_dropWhile]
          have hRw : ∀ d ∈ c :: rest.takeWhile isWordChar,
              isWordChar d = true := by
            intro d hd
            rcases List.mem_cons.mp hd with rfl | hd'
            · exact hcw
            · exact List.mem_takeWhile_imp hd'
          obtain ⟨p, hp, heq⟩ := subBAux_copy_run k ks v hk
            (c :: rest.takeWhile isWordChar) (by simp) hRw
            (rest.dropWhile isWordChar) prev (by rw [← hsplit]; exact hm)
          rw [hsplit, heq]
          cases hs' : rest.dropWhile isWordChar with
          | nil => rw [subBAux_nil]
          | cons d rest₂ =>
            have hd : isWordChar d = false := by
              have hnot := List.head?_dropWhile_not isWordChar rest
              rw [hs', List.head?_cons] at hnot
              exact hnot
            rw [subBAux_cons, if_neg
              (by rw [keyMatch_false_of_nonword_head k ks (some p) d rest₂ hk hd]; simp)]
            have hsub : ∀ d' ∈ rest₂, d' ∈ c :: rest := by
              intro d' hd'
              apply List.mem_cons_of_mem
              have h1 : d' ∈ rest.dropWhile isWordChar := by
                rw [hs']; exact List.mem_cons_of_mem _ hd'
              exact (List.dropWhile_sublist _).subset h1
            have hlen₂ : rest₂.length ≤ n := by
              have h1 : (d :: rest₂).length ≤ rest.length := by
                rw [← hs']; exact (List.dropWhile_sublist _).length_le
              rw [List.length_cons] at h1
              omega
            have hwr : wruns (c :: rest) =
                (c :: rest.takeWhile isWordChar) :: wruns rest₂ := by
              conv_lhs => rw [hsplit, hs']
              rw [wruns_append_word _ _ (by simp) hRw
                (by rw [List.head?_cons, isWordO_some, hd]),
                wruns_cons_not_word d rest₂ hd]
            rw [ih rest₂ hlen₂ (fun e he => hchars e (hsub e he))
              (fun e he => hlc e (hsub e he))
              (fun w hw => hruns w (by rw [hwr]; exact List.mem_cons_of_mem _ hw))
              (some d) (by rw [isWordO_some, hd])]
        · -- a space is copied unchanged
          rw [subBAux_cons, if_neg (by rw [hm]; simp)]
          have hsub : ∀ d ∈ rest, d ∈ ' ' :: rest :=
            fun d hd => List.mem_cons_of_mem _ hd
          rw [ih rest hlen (fun e he => hchars e (hsub e he))
            (fun e he => hlc e (hsub e he))
            (fun w hw => hruns w
              (by rw [wruns_cons_not_word ' ' rest (by decide)]; exact hw))
            (some ' ') (by decide)]

/-! ### Run tracking through one substitution -/

theorem wruns_append_word_general (v X : List Char) (hv : v ≠ [])
    (hvw : ∀ c ∈ v, isWordChar c = true) :
    wruns (v ++ X) =
      (v ++ X.takeWhile isWordChar) :: wruns (X.dropWhile isWordChar) := by
  cases v with
  | nil => exact absurd rfl hv
  | cons v0 v' =>
    rw [List.cons_append, wruns_cons_word_general v0 _
      (hvw v0 (List.mem_cons_self ..))]
    rw [takeWhile_append_all _ v' X
      (fun c hc => hvw c (List.mem_cons_of_mem _ hc))]
    rw [dropWhile_append_all _ v' X
      (fun c hc => hvw c (List.mem_cons_of_mem _ hc))]
    rw [List.cons_append]

theorem mem_wruns_dropWhile (X : List Char) (w : List Char)
    (hw : w ∈ wruns (X.dropWhile isWordChar)) : w ∈ wruns X := by
  cases X with
  | nil => exact hw
  | cons x X' =>
    by_cases hx : isWordChar x = true
    · rw [List.dropWhile_cons_of_pos hx] at hw
      rw [wruns_cons_word_general x X' hx]
      exact List.mem_cons_of_mem _ hw
    · rwa [List.dropWhile_cons_of_neg (by simp [hx])] at hw

theorem subBAux_runs_word (k : Char) (ks v : List Char)
    (hkw : ∀ c ∈ k :: ks, isWordChar c = true)
    (hvw : ∀ c ∈ v, isWordChar c = true) (hvne : v ≠ []) (n : Nat) :
    ∀ (s : List Char), s.length ≤ n → (∀ c ∈ s, lowerChar c = c) →
      ∀ prev, isWordO prev = false →
      ∀ w ∈ wruns (subBAux k ks v prev s),
        w = v ∨ (w ∈ wruns s ∧ w ≠ (k :: ks)) := by
  have hk : isWordChar k = true := hkw k (List.mem_cons_self ..)
  induction n with
  | zero =>
    intro s hlen _ prev _ w hw
    rw [List.length_eq_zero.mp (Nat.le_zero.mp hlen)] at hw
    rw [subBAux_nil, wruns_nil] at hw
    exact absurd hw (List.not_mem_nil w)
  | succ n ih =>
    intro s hlen hlc prev hprev w hw
    by_cases hm : keyMatch (k :: ks) prev s = true
    · obtain ⟨hsplit, hb⟩ := keyMatch_decompose k ks prev s hlc hm
      have hth : isWordO (s.drop (k :: ks).length).head? = false := by
        rw [wordBoundary, isWordO_getLast_word (k :: ks) (by simp) hkw] at hb
        cases hh : isWordO (s.drop (k :: ks).length).head? with
        | false => rfl
        | true => rw [hh] at hb; simp at hb
      have hout : subBAux k ks v prev s =
          v ++ subBAux k ks v ((k :: ks).getLast?)
            (s.drop (k :: ks).length) := by
        conv_lhs => rw [hsplit, List.cons_append]
        rw [subBAux_cons, if_pos (by rw [← List.cons_append, ← hsplit]; exact hm)]
        rw [← List.cons_append, List.take_left, List.drop_left]
      rw [hout] at hw
      cases ht : s.drop (k :: ks).length with
      | nil =>
        rw [ht, subBAux_nil, List.append_nil] at hw
        have hwv : wruns v = [v] := by
          have h1 := wruns_append_word v [] hvne hvw (by rfl)
          rw [List.append_nil, wruns_nil] at h1
          exact h1
        rw [hwv] at hw
        exact Or.inl (List.mem_singleton.mp hw)
      | cons d rest₂ =>
        have hd : isWordChar d = false := by rw [ht, List.head?_cons] at hth; exact hth
        rw [ht, subBAux_cons, if_neg
          (by rw [keyMatch_false_of_nonword_head k ks _ d rest₂ hk hd]; simp)] at hw
        rw [wruns_append_word v _ hvne hvw
          (by rw [List.head?_cons, isWordO_some, hd]),
          wruns_cons_not_word d _ hd] at hw
        have hsub₂ : ∀ c ∈ rest₂, c ∈ s := by
          intro c hc
          rw [hsplit, ht]
          exact List.mem_append_right _ (List.mem_cons_of_mem _ hc)
        have hlen₂ : rest₂.length ≤ n := by
          have h1 : s.length = (k :: ks).length + (s.drop (k :: ks).length).length := by
            conv_lhs => rw [hsplit]
            rw [List.length_append]
          rw [ht, List.length_cons, List.length_cons] at h1
          omega
        have hwr : wruns s = (k :: ks) :: wruns rest₂ := by
          conv_lhs => rw [hsplit, ht]
          rw [wruns_append_word (k :: ks) _ (by simp) hkw
            (by rw [List.head?_cons, isWordO_some, hd]),
            wruns_cons_not_word d _ hd]
        rcases List.mem_cons.mp hw with rfl | hw'
        · exact Or.inl rfl
        · rcases ih rest₂ hlen₂ (fun c hc => hlc c (hsub₂ c hc)) (some d)
            (by rw [isWordO_some, hd]) w hw' with hv' | ⟨hmem, hne⟩
          · exact Or.inl hv'
          · exact Or.inr ⟨by rw [hwr]; exact List.mem_cons_of_mem _ hmem, hne⟩
    · rw [Bool.not_eq_true] at hm
      cases s with
      | nil =>
        rw [subBAux_nil, wruns_nil] at hw
        exact absurd hw (List.not_mem_nil w)
      | cons c rest =>
        simp only [List.length_cons, Nat.add_le_add_iff_right] at hlen
        by_cases hcw : isWordChar c = true
        · have hsplit : c :: rest =
              (c :: rest.takeWhile isWordChar) ++ rest.dropWhile isWordChar := by
            rw [List.cons_append, List.takeWhile_append_dropWhile]
          have hRw : ∀ d ∈ c :: rest.takeWhile isWordChar,
              isWordChar d = true := by
            intro d hd
            rcases List.mem_cons.mp hd with rfl | hd'
            · exact hcw
            · exact List.mem_takeWhile_imp hd'
          obtain ⟨p, hp, heq⟩ := subBAux_copy_run k ks v hk
            (c :: rest.takeWhile isWordChar) (by simp) hRw
            (rest.dropWhile isWordChar) prev (by rw [← hsplit]; exact hm)
          have hfixR : ∀ d ∈ c :: rest.takeWhile isWordChar, lowerChar d = d := by
            intro d hd
            apply hlc
            rcases List.mem_cons.mp hd with rfl | hd'
            · exact List.mem_cons_self ..
            · exact List.mem_cons_of_mem _ ((List.takeWhile_sublist _).subset hd')
          rw [show subBAux k ks v prev (c :: rest) =
              subBAux k ks v prev ((c :: rest.takeWhile isWordChar) ++
                rest.dropWhile isWordChar) from by rw [← hsplit], heq] at hw
          cases hs' : rest.dropWhile isWordChar with
          | nil =>
            rw [hs', subBAux_nil, List.append_nil] at hw
            have hRne : c :: rest.takeWhile isWordChar ≠ (k :: ks) := by
              intro hRK
              have hKM : keyMatch (k :: ks) prev (c :: rest) = true := by
                have h2 := keyMatch_of_run k ks prev [] hkw
                  (by rw [← hRK]; exact hfixR) hprev (by rfl)
                rw [List.append_nil] at h2
                rw [show c :: rest = k :: ks from by
                  rw [← hRK, hsplit, hs', List.append_nil]]
                exact h2
              rw [hKM] at hm; exact absurd hm (by simp)
            have hwR : wruns (c :: rest.takeWhile isWordChar) =
                [c :: rest.takeWhile isWordChar] := by
              have h1 := wruns_append_word (c :: rest.takeWhile isWordChar) []
                (by simp) hRw (by rfl)
              rw [List.append_nil, wruns_nil] at h1
              exact h1
            rw [hwR] at hw
            have hwRun : wruns (c :: rest) =
                [c :: rest.takeWhile isWordChar] := by
              conv_lhs => rw [hsplit, hs']
              exact hwR ▸ (by rw [List.append_nil])
            rw [List.mem_singleton.mp hw]
            exact Or.inr ⟨by rw [hwRun]; exact List.mem_singleton.mpr rfl, hRne⟩
          | cons d rest₂ =>
            have hd : isWordChar d = false := by
              have hnot := List.head?_dropWhile_not isWordChar rest
              rw [hs', List.head?_cons] at hnot
              exact hnot
            rw [hs', subBAux_cons, if_neg
              (by rw [keyMatch_false_of_nonword_head k ks (some p) d rest₂ hk hd]; simp)] at hw
            rw [wruns_append_word _ _ (by simp) hRw
              (by rw [List.head?_cons, isWordO_some, hd]),
              wruns_cons_not_word d _ hd] at hw
            have hsub₂ : ∀ e ∈ rest₂, e ∈ c :: rest := by
              intro e he
              apply List.mem_cons_of_mem
              have h1 : e ∈ rest.dropWhile isWordChar := by
                rw [hs']; exact List.mem_cons_of_mem _ he
              exact (List.dropWhile_sublist _).subset h1
            have hlen₂ : rest₂.length ≤ n := by
              have h1 : (d :: rest₂).length ≤ rest.length := by
                rw [← hs']; exact (List.dropWhile_sublist _).length_le
              rw [List.length_cons] at h1
              omega
            have hwr : wruns (c :: rest) =
                (c :: rest.takeWhile isWordChar) :: wruns rest₂ := by
              conv_lhs => rw [hsplit, hs']
              rw [wruns_append_word _ _ (by simp) hRw
                (by rw [List.head?_cons, isWordO_some, hd]),
                wruns_cons_not_word d _ hd]
            rcases List.mem_cons.mp hw with rfl | hw'
            · refine Or.inr ⟨by rw [hwr]; exact List.mem_cons_self .., ?_⟩
              intro hRK
              have hKM : keyMatch (k :: ks) prev (c :: rest) = true := by
                have h2 := keyMatch_of_run k ks prev (d :: rest₂) hkw
                  (by rw [← hRK]; exact hfixR) hprev
                  (by rw [List.head?_cons, isWordO_some, hd])
                rw [show c :: rest = (k :: ks) ++ d :: rest₂ from by
                  rw [← hRK, ← hs', ← hsplit]]
                exact h2
              rw [hKM] at hm; exact absurd hm (by simp)
            · rcases ih rest₂ hlen₂ (fun e he => hlc e (hsub₂ e he)) (some d)
                (by rw [isWordO_some, hd]) w hw' with hv' | ⟨hmem, hne⟩
              · exact Or.inl hv'
              · exact Or.inr ⟨by rw [hwr]; exact List.mem_cons_of_mem _ hmem, hne⟩
        · have hcb : isWordChar c = false := Bool.not_eq_true _ |>.mp hcw
          rw [subBAux_cons, if_neg (by rw [hm]; simp)] at hw
          rw [wruns_cons_not_word c _ hcb] at hw
          rcases ih rest hlen (fun e he => hlc e (List.mem_cons_of_mem _ he))
            (some c) (by rw [isWordO_some, hcb]) w hw with hv' | ⟨hmem, hne⟩
          · exact Or.inl hv'
          · exact Or.inr ⟨by rw [wruns_cons_not_word c rest hcb]; exact hmem, hne⟩

theorem subBAux_runs_dotted (k : Char) (ks v W : List Char)
    (hK : k :: ks = W ++ ['.']) (hWne : W ≠ [])
    (hWw : ∀ c ∈ W, isWordChar c = true)
    (hvw : ∀ c ∈ v, isWordChar c = true) (hvne : v ≠ []) (n : Nat) :
    ∀ (s : List Char), s.length ≤ n → (∀ c ∈ s, lowerChar c = c) →
      ∀ prev, isWordO prev = false →
      ∀ w ∈ wruns (subBAux k ks v prev s),
        w ∈ wruns s ∨ v.length ≤ w.length := by
  have hdot : isWordChar '.' = false := by decide
  have hk : isWordChar k = true := by
    cases W with
    | nil => exact absurd rfl hWne
    | cons w0 W' =>
      rw [List.cons_append] at hK
      rw [(List.cons.injEq .. |>.mp hK).1]
      exact hWw w0 (List.mem_cons_self ..)
  induction n with
  | zero =>
    intro s hlen _ prev _ w hw
    rw [List.length_eq_zero.mp (Nat.le_zero.mp hlen)] at hw
    rw [subBAux_nil, wruns_nil] at hw
    exact absurd hw (List.not_mem_nil w)
  | succ n ih =>
    intro s hlen hlc prev hprev w hw
    by_cases hm : keyMatch (k :: ks) prev s = true
    · obtain ⟨hsplit, hb⟩ := keyMatch_decompose k ks prev s hlc hm
      have hlast : (k :: ks).getLast? = some '.' := by
        rw [hK]; exact List.getLast?_concat W
      have hth : isWordO (s.drop (k :: ks).length).head? = true := by
        rw [wordBoundary, hlast, isWordO_some, hdot] at hb
        cases hh : isWordO (s.drop (k :: ks).length).head? with
        | true => rfl
        | false => rw [hh] at hb; simp at hb
      have hout : subBAux k ks v prev s =
          v ++ subBAux k ks v (some '.') (s.drop (k :: ks).length) := by
        conv_lhs => rw [hsplit, List.cons_append]
        rw [subBAux_cons, if_pos (by rw [← List.cons_append, ← hsplit]; exact hm)]
        rw [← List.cons_append, List.take_left, List.drop_left, hlast]
      rw [hout, wruns_append_word_general v _ hvne hvw] at hw
      have hslen : s.length = (k :: ks).length + (s.drop (k :: ks).length).length := by
        conv_lhs => rw [hsplit]
        rw [List.length_append]
      have hwr : wruns s = W :: wruns (s.drop (k :: ks).length) := by
        conv_lhs => rw [hsplit, hK, List.append_assoc, List.singleton_append]
        rw [wruns_append_word W _ hWne hWw
          (by rw [List.head?_cons, isWordO_some, hdot]),
          wruns_cons_not_word _ _ hdot, hK]
      have hsub : ∀ c ∈ s.drop (k :: ks).length, c ∈ s := by
        intro c hc
        rw [hsplit]
        exact List.mem_append_right _ hc
      have hlen' : (s.drop (k :: ks).length).length ≤ n := by
        have hpos : 0 < (k :: ks).length := by simp
        omega
      rcases List.mem_cons.mp hw with rfl | hw'
      · exact Or.inr (by rw [List.length_append]; exact Nat.le_add_right ..)
      · have hw'' := mem_wruns_dropWhile _ w hw'
        rcases ih (s.drop (k :: ks).length) hlen'
          (fun c hc => hlc c (hsub c hc))
          (some '.') (by rw [isWordO_some, hdot]) w hw'' with hmem | hlong
        · exact Or.inl (by rw [hwr]; exact List.mem_cons_of_mem _ hmem)
        · exact Or.inr hlong
    · rw [Bool.not_eq_true] at hm
      cases s with
      | nil =>
        rw [subBAux_nil, wruns_nil] at hw
        exact absurd hw (List.not_mem_nil w)
      | cons c rest =>
        simp only [List.length_cons, Nat.add_le_add_iff_right] at hlen
        by_cases hcw : isWordChar c = true
        · have hsplit : c :: rest =
              (c :: rest.takeWhile isWordChar) ++ rest.dropWhile isWordChar := by
            rw [List.cons_append, List.takeWhile_append_dropWhile]
          have hRw : ∀ d ∈ c :: rest.takeWhile isWordChar,
              isWordChar d = true := by
            intro d hd
            rcases List.mem_cons.mp hd with rfl | hd'
            · exact hcw
            · exact List.mem_takeWhile_imp hd'
          obtain ⟨p, hp, heq⟩ := subBAux_copy_run k ks v hk
            (c :: rest.takeWhile isWordChar) (by simp) hRw
            (rest.dropWhile isWordChar) prev (by rw [← hsplit]; exact hm)
          rw [show subBAux k ks v prev (c :: rest) =
              subBAux k ks v prev ((c :: rest.takeWhile isWordChar) ++
                rest.dropWhile isWordChar) from by rw [← hsplit], heq] at hw
          cases hs' : rest.dropWhile isWordChar with
          | nil =>
            rw [hs', subBAux_nil, List.append_nil] at hw
            have hwR : wruns (c :: rest.takeWhile isWordChar) =
                [c :: rest.takeWhile isWordChar] := by
              have h1 := wruns_append_word (c :: rest.takeWhile isWordChar) []
                (by simp) hRw (by rfl)
              rw [List.append_nil, wruns_nil] at h1
              exact h1
            rw [hwR] at hw
            have hwRun : wruns (c :: rest) =
                [c :: rest.takeWhile isWordChar] := by
              conv_lhs => rw [hsplit, hs', List.append_nil]
              exact hwR
            rw [List.mem_singleton.mp hw]
            exact Or.inl (by rw [hwRun]; exact List.mem_singleton.mpr rfl)
          | cons d rest₂ =>
            have hd : isWordChar d = false := by
              have hnot := List.head?_dropWhile_not isWordChar rest
              rw [hs', List.head?_cons] at hnot
              exact hnot
            rw [hs', subBAux_cons, if_neg
              (by rw [keyMatch_false_of_nonword_head k ks (some p) d rest₂ hk hd]; simp)] at hw
            rw [wruns_append_word _ _ (by simp) hRw
              (by rw [List.head?_cons, isWordO_some, hd]),
              wruns_cons_not_word d _ hd] at hw
            have hsub₂ : ∀ e ∈ rest₂, e ∈ c :: rest := by
              intro e he
              apply List.mem_cons_of_mem
              have h1 : e ∈ rest.dropWhile isWordChar := by
                rw [hs']; exact List.mem_cons_of_mem _ he
              exact (List.dropWhile_sublist _).subset h1
            have hlen₂ : rest₂.length ≤ n := by
              have h1 : (d :: rest₂).length ≤ rest.length := by
                rw [← hs']; exact (List.dropWhile_sublist _).length_le
              rw [List.length_cons] at h1
              omega
            have hwr : wruns (c :: rest) =
                (c :: rest.takeWhile isWordChar) :: wruns rest₂ := by
              conv_lhs => rw [hsplit, hs']
              rw [wruns_append_word _ _ (by simp) hRw
                (by rw [List.head?_cons, isWordO_some, hd]),
                wruns_cons_not_word d _ hd]
            rcases List.mem_cons.mp hw with rfl | hw'
            · exact Or.inl (by rw [hwr]; exact List.mem_cons_self ..)
            · rcases ih rest₂ hlen₂ (fun e he => hlc e (hsub₂ e he)) (some d)
                (by rw [isWordO_some, hd]) w hw' with hmem | hlong
              · exact Or.inl (by rw [hwr]; exact List.mem_cons_of_mem _ hmem)
              · exact Or.inr hlong
        · have hcb : isWordChar c = false := Bool.not_eq_true _ |>.mp hcw
          rw [subBAux_cons, if_neg (by rw [hm]; simp)] at hw
          rw [wruns_cons_not_word c _ hcb] at hw
          rcases ih rest hlen (fun e he => hlc e (List.mem_cons_of_mem _ he))
            (some c) (by rw [isWordO_some, hcb]) w hw with hmem | hlong
          · exact Or.inl (by rw [wruns_cons_not_word c rest hcb]; exact hmem)
          · exact Or.inr hlong

/-! ### Key freedom after the replacement fold -/

theorem journal_replacements_good : ∀ r ∈ JOURNAL_REPLACEMENTS, GoodRule r := by
  decide

theorem wordKeys_len : ∀ K ∈ wordKeysList, K.length ≤ 4 := by decide

theorem wordKeys_covered : ∀ K ∈ wordKeysList,
    ∃ r ∈ JOURNAL_REPLACEMENTS, r.1.data = K ∧
      ∀ c ∈ K, isWordChar c = true := by decide

theorem word_rule_key_mem : ∀ r ∈ JOURNAL_REPLACEMENTS,
    (∀ c ∈ (r.1 : String).data, isWordChar c = true) →
      (r.1 : String).data ∈ wordKeysList := by decide

theorem reSubWordB_eq_key (key val : String) (k : Char) (ks : List Char)
    (h : key.data = k :: ks) (t : List Char) :
    reSubWordB key val t = subBAux k ks val.data none t := by
  rw [reSubWordB, h]

theorem reSubWordB_eq_nil (key val : String) (h : key.data = [])
    (t : List Char) : reSubWordB key val t = t := by
  rw [reSubWordB, h]

theorem reSubWordB_no_key (r : String × String) (hg : GoodRule r)
    (K : List Char) (hKlen : K.length ≤ 4)
    (t : List Char) (hlc : ∀ c ∈ t, lowerChar c = c)
    (hK : (∀ w ∈ wruns t, w ≠ K) ∨
      ((r.1 : String).data = K ∧ ∀ c ∈ K, isWordChar c = true)) :
    ∀ w ∈ wruns (reSubWordB r.1 r.2 t), w ≠ K := by
  obtain ⟨hshape, hvw, hvlc, hvlen⟩ := hg
  have hvne : (r.2 : String).data ≠ [] := by
    intro h; rw [h] at hvlen; simp at hvlen
  have hvK : (r.2 : String).data ≠ K := by
    intro h; rw [h] at hvlen; omega
  cases hkd : (r.1 : String).data with
  | nil =>
    rw [reSubWordB_eq_nil r.1 r.2 hkd]
    intro w hw
    rcases hK with hfree | ⟨hkK, _⟩
    · exact hfree w hw
    · rw [hkd] at hkK
      rw [← hkK]
      exact (wruns_spec t.length t le_rfl w hw).1
  | cons k ks =>
    rw [reSubWordB_eq_key r.1 r.2 k ks hkd]
    rcases hshape with hword | ⟨hdne, hdlast, hdw⟩
    · rw [hkd] at hword
      intro w hw
      rcases subBAux_runs_word k ks (r.2 : String).data hword hvw hvne
        t.length t le_rfl hlc none rfl w hw with rfl | ⟨hmem, hne⟩
      · exact hvK
      · rcases hK with hfree | ⟨hkK, _⟩
        · exact hfree w hmem
        · rw [hkd] at hkK
          intro hwK
          exact hne (hwK.trans hkK.symm)
    · have hfree : ∀ w ∈ wruns t, w ≠ K := by
        rcases hK with hfree | ⟨hkK, hKw⟩
        · exact hfree
        · exfalso
          have hdotmem : '.' ∈ (r.1 : String).data :=
            mem_of_getLast _ '.' hdlast
          rw [hkK] at hdotmem
          have hWd := hKw '.' hdotmem
          exact absurd hWd (by decide)
      obtain ⟨l', hl'⟩ := List.getLast?_eq_some_iff.mp hdlast
      have hdrop : (r.1 : String).data.dropLast = l' := by rw [hl']; simp
      have hWne : l' ≠ [] := hdrop ▸ hdne
      have hWw : ∀ c ∈ l', isWordChar c = true := hdrop ▸ hdw
      have hKeq : k :: ks = l' ++ ['.'] := by rw [← hkd, hl']
      intro w hw
      rcases subBAux_runs_dotted k ks (r.2 : String).data l' hKeq hWne hWw
        hvw hvne t.length t le_rfl hlc none rfl w hw with hmem | hlong
      · exact hfree w hmem
      · intro hwK
        rw [hwK] at hlong
        omega

theorem foldRules_no_key (K : List Char) (hKlen : K.length ≤ 4)
    (rules : List (String × String)) (hg : ∀ r ∈ rules, GoodRule r) :
    ∀ (t : List Char), (∀ c ∈ t, lowerChar c = c) →
      ((∀ w ∈ wruns t, w ≠ K) ∨
        ∃ r ∈ rules, (r.1 : String).data = K ∧
          ∀ c ∈ K, isWordChar c = true) →
      ∀ w ∈ wruns (rules.foldl (fun x r => reSubWordB r.1 r.2 x) t),
        w ≠ K := by
  induction rules with
  | nil =>
    intro t _ h w hw
    rcases h with hfree | ⟨r, hr, _⟩
    · exact hfree w hw
    · exact absurd hr (List.not_mem_nil r)
  | cons r rest ih =>
    intro t hlc h
    rw [List.foldl_cons]
    have hgr := hg r (List.mem_cons_self ..)
    have hlc' : ∀ c ∈ reSubWordB r.1 r.2 t, lowerChar c = c :=
      reSubWordB_chars (fun c => lowerChar c = c) r.1 r.2 hgr.2.2.1 t hlc
    apply ih (fun r' hr' => hg r' (List.mem_cons_of_mem _ hr'))
      (reSubWordB r.1 r.2 t) hlc'
    rcases h with hfree | ⟨r', hr', hkey, hKw⟩
    · exact Or.inl (reSubWordB_no_key r hgr K hKlen t hlc (Or.inl hfree))
    · rcases List.mem_cons.mp hr' with heq | hr'rest
      · exact Or.inl (reSubWordB_no_key r hgr K hKlen t hlc
          (Or.inr ⟨heq ▸ hkey, hKw⟩))
      · exact Or.inr ⟨r', hr'rest, hkey, hKw⟩

theorem applyReplacements_no_word_key (t : List Char)
    (hlc : ∀ c ∈ t, lowerChar c = c) :
    ∀ K ∈ wordKeysList, ∀ w ∈ wruns (applyReplacements t), w ≠ K := by
  intro K hK
  have h := foldRules_no_key K (wordKeys_len K hK) JOURNAL_REPLACEMENTS
    journal_replacements_good t hlc (Or.inr (wordKeys_covered K hK))
  exact h

theorem foldRules_id (rules : List (String × String)) :
    ∀ (t : List Char), (∀ r ∈ rules, GoodRule r) →
      (∀ c ∈ t, isWordChar c = true ∨ c = ' ') →
      (∀ c ∈ t, lowerChar c = c) →
      (∀ r ∈ rules, (∀ c ∈ (r.1 : String).data, isWordChar c = true) →
        ∀ w ∈ wruns t, w ≠ (r.1 : String).data) →
      rules.foldl (fun x r => reSubWordB r.1 r.2 x) t = t := by
  induction rules with
  | nil => intro t _ _ _ _; rfl
  | cons r rest ih =>
    intro t hg hchars hlc hruns
    rw [List.foldl_cons]
    have hstep : reSubWordB r.1 r.2 t = t := by
      cases hkd : (r.1 : String).data with
      | nil => exact reSubWordB_eq_nil r.1 r.2 hkd t
      | cons k ks =>
        rw [reSubWordB_eq_key r.1 r.2 k ks hkd]
        rcases (hg r (List.mem_cons_self ..)).1 with hword | ⟨_, hdlast, _⟩
        · apply subBAux_id_word k ks (r.2 : String).data (hkd ▸ hword)
            t.length t le_rfl hchars hlc ?_ none rfl
          intro w hw
          rw [← hkd]
          exact hruns r (List.mem_cons_self ..) hword w hw
        · apply subBAux_id_of_dot k ks (r.2 : String).data ?_ t.length t
            le_rfl ?_ none
          · rw [← hkd]
            exact mem_of_getLast _ '.' hdlast
          · intro c hc
            rw [hlc c hc]
            rcases hchars c hc with hw | rfl
            · intro hcd
              rw [hcd] at hw
              exact absurd hw (by decide)
            · decide
    rw [hstep]
    exact ih t (fun r' hr' => hg r' (List.mem_cons_of_mem _ hr')) hchars hlc
      (fun r' hr' => hruns r' (List.mem_cons_of_mem _ hr'))

/-! ### Idempotence of the normalizer -/

theorem standardizeList_of_canonical (u : List Char)
    (hlc : ∀ c ∈ u, lowerChar c = c)
    (hNK : ∀ K ∈ wordKeysList, ∀ w ∈ wruns u, w ≠ K) :
    standardizeList (joinSpace (wruns u)) = joinSpace (wruns u) := by
  have hrw : ∀ w ∈ wruns u, w ≠ [] ∧ (∀ c ∈ w, isWordChar c = true) ∧
      (∀ c ∈ w, c ∈ u) :=
    fun w hw => wruns_spec u.length u le_rfl w hw
  have hchars : ∀ c ∈ joinSpace (wruns u), isWordChar c = true ∨ c = ' ' := by
    intro c hc
    rcases joinSpace_chars (wruns u) c hc with ⟨w, hw, hcw⟩ | rfl
    · exact Or.inl ((hrw w hw).2.1 c hcw)
    · exact Or.inr rfl
  have hlcO : ∀ c ∈ joinSpace (wruns u), lowerChar c = c := by
    intro c hc
    rcases joinSpace_chars (wruns u) c hc with ⟨w, hw, hcw⟩ | rfl
    · exact hlc c ((hrw w hw).2.2 c hcw)
    · decide
  have hwout : wruns (joinSpace (wruns u)) = wruns u :=
    wruns_join (wruns u) (fun w hw => ⟨(hrw w hw).1, (hrw w hw).2.1⟩)
  have hhead : ∀ c, (joinSpace (wruns u)).head? = some c →
      isSpaceChar c = false := by
    intro c hc
    obtain ⟨w, hw, hcw⟩ := joinSpace_head (wruns u)
      (fun w hw => (hrw w hw).1) c hc
    exact isSpaceChar_eq_false_of_word c ((hrw w hw).2.1 c hcw)
  have hlast : ∀ c, (joinSpace (wruns u)).getLast? = some c →
      isSpaceChar c = false := by
    intro c hc
    obtain ⟨w, hw, hcw⟩ := joinSpace_getLast (wruns u)
      (fun w hw => (hrw w hw).1) c hc
    exact isSpaceChar_eq_false_of_word c ((hrw w hw).2.1 c hcw)
  have h1 : pyLower (joinSpace (wruns u)) = joinSpace (wruns u) :=
    pyLower_id _ hlcO
  have h2 : pyStrip (joinSpace (wruns u)) = joinSpace (wruns u) :=
    pyStrip_id _ hhead hlast
  have h3 : replaceAmp (joinSpace (wruns u)) = joinSpace (wruns u) := by
    apply replaceAmp_id
    intro c hc hceq
    rcases hchars c hc with hw | hsp
    · rw [hceq] at hw; exact absurd hw (by decide)
    · exact absurd (hsp.symm.trans hceq) (by decide)
  have h4 : replaceHyphenColon (joinSpace (wruns u)) = joinSpace (wruns u) := by
    apply replaceHyphenColon_id
    intro c hc
    refine ⟨fun hceq => ?_, fun hceq => ?_⟩
    · rcases hchars c hc with hw | hsp
      · rw [hceq] at hw; exact absurd hw (by decide)
      · exact absurd (hsp.symm.trans hceq) (by decide)
    · rcases hchars c hc with hw | hsp
      · rw [hceq] at hw; exact absurd hw (by decide)
      · exact absurd (hsp.symm.trans hceq) (by decide)
  have h5 : parenSub (joinSpace (wruns u)) = joinSpace (wruns u) := by
    apply parenSub_id
    intro c hc hceq
    rcases hchars c hc with hw | hsp
    · rw [hceq] at hw; exact absurd hw (by decide)
    · exact absurd (hsp.symm.trans hceq) (by decide)
  have hruns6 : ∀ r ∈ JOURNAL_REPLACEMENTS,
      (∀ c ∈ (r.1 : String).data, isWordChar c = true) →
      ∀ w ∈ wruns (joinSpace (wruns u)), w ≠ (r.1 : String).data := by
    intro r hr hword w hw
    rw [hwout] at hw
    exact hNK (r.1 : String).data (word_rule_key_mem r hr hword) w hw
  have h6 : applyReplacements (joinSpace (wruns u)) = joinSpace (wruns u) :=
    foldRules_id JOURNAL_REPLACEMENTS (joinSpace (wruns u))
      journal_replacements_good hchars hlcO hruns6
  simp only [standardizeList]
  rw [h1, h2, h3, h4, h5, h6, splitWords_stripPunct, hwout]

theorem standardizeList_idem (s : List Char) :
    standardizeList (standardizeList s) = standardizeList s := by
  have hP_L : ∀ c ∈ pyLower s, lowerChar c = c := pyLower_lower_fixed s
  have hP_S : ∀ c ∈ pyStrip (pyLower s), lowerChar c = c :=
    fun c hc => hP_L c (pyStrip_subset _ c hc)
  have hP_A : ∀ c ∈ replaceAmp (pyStrip (pyLower s)), lowerChar c = c :=
    replaceAmp_chars _ (by decide) (by decide) (by decide) _ hP_S
  have hP_H : ∀ c ∈ replaceHyphenColon (replaceAmp (pyStrip (pyLower s))),
      lowerChar c = c :=
    replaceHyphenColon_chars _ (by decide) _ hP_A
  have hP_P : ∀ c ∈ parenSub (replaceHyphenColon (replaceAmp
      (pyStrip (pyLower s)))), lowerChar c = c :=
    fun c hc => hP_H c (parenSub_subset _ _ le_rfl c hc)
  have hlc_u : ∀ c ∈ applyReplacements (parenSub (replaceHyphenColon
      (replaceAmp (pyStrip (pyLower s))))), lowerChar c = c :=
    foldRules_chars _ JOURNAL_REPLACEMENTS
      (fun r hr => (journal_replacements_good r hr).2.2.1) _ hP_P
  have hNK := applyReplacements_no_word_key
    (parenSub (replaceHyphenColon (replaceAmp (pyStrip (pyLower s))))) hP_P
  have hform : standardizeList s = joinSpace (wruns (applyReplacements
      (parenSub (replaceHyphenColon (replaceAmp (pyStrip (pyLower s))))))) := by
    simp only [standardizeList]
    rw [splitWords_stripPunct]
  rw [hform]
  exact standardizeList_of_canonical _ hlc_u hNK

/-- **C8**: normalization is idempotent: for every input value `x`,
`standardize_text (standardize_text x)` equals `standardize_text x` — the
output of the normalizer is already canonical and is a fixed point of a
second normalization pass. -/
theorem c8_normalize_idempotent (x : PyValue) :
    standardize_text (PyValue.str (standardize_text x)) = standardize_text x := by
  cases x with
  | str s =>
    show standardizeStr (standardizeStr s) = standardizeStr s
    simp only [standardizeStr]
    exact congrArg String.mk (standardizeList_idem s.data)
  | num q => show standardizeStr "" = ""; decide
  | pyNone => show standardizeStr "" = ""; decide

end ImpactFactor
